import Mathlib

/-!
# bubbles-graph: the sample ring, the scale rule, the glyph table and the resize

A shallow embedding of `graph/graph.go`.

* Go `int` is a 64-bit two's-complement integer.  Values are `Int`; the
  arithmetic on caller-supplied numbers (`y * h`, the quotient, `w - 2`,
  `h - 2`, `lastID++`) is wrapped with `wrap64`.  The index arithmetic of
  `View` (`h - 1 - i`, `y - 1`, `xIndex++`, the frame subtraction) has operands
  between zero and the height or the ring length and is plain `Int` arithmetic.
* A run-time panic (nil dereference, failed type assertion, index out of
  range, division by zero) is a value of `Panic`; every operation that can
  panic returns `Except Panic _`.
* `*ring.Ring` (package `container/ring`) is a pointer into a circular
  doubly-linked list.  A pointer is represented by the values met when
  following the `next` links once around, starting at the element pointed to;
  the nil pointer is the empty list.  `Ring.Value` is an `any`: `none` is the
  nil interface value that `ring.New` leaves in every element, `some v` is an
  `int`.
* `lipgloss.Style` is reduced to the four numbers the code reads back: the
  width and height that were set, and the horizontal and vertical frame size.
* A method of `Model` is a function of the model it is called on, the ring
  read through the model's pointer, to the model it returns or leaves behind.
  That is the whole effect of a call on a model that alone points to its ring;
  `ChainReachable` closes `New` under such calls.  A copy of a model shares the
  ring of the original (the struct holds a pointer) and `AddNextValue` writes
  through it: `World` keeps the rings in a heap and the model values apart, each
  with its pointer, and `Reachable` is the set of states of that program.
* `View` is modelled up to the text of its string builder; the two `Render`
  calls that style that text, the time stamp of `UpdateMessage` and the mutex of
  `nextID` are left out.
* A `tea.Cmd` is nil or the `UpdateMessage` it delivers; `tea.Batch` is
  modelled on the at most one command that `Update` hands to it.
-/

namespace Graph

/-! ## Go integers and panics -/

/-- Run-time panics of the Go program. -/
inductive Panic where
  | nilDeref
  | typeAssert
  | indexRange
  | divZero
  deriving DecidableEq

/-- Reduction of an integer to the range of a Go `int` (64 bits, two's complement). -/
def wrap64 (x : Int) : Int := (x + 2 ^ 63) % 2 ^ 64 - 2 ^ 63

/-- Go `a + b` on `int`. -/
def goAdd (a b : Int) : Int := wrap64 (a + b)

/-- Go `a - b` on `int`. -/
def goSub (a b : Int) : Int := wrap64 (a - b)

/-- Go `a * b` on `int`. -/
def goMul (a b : Int) : Int := wrap64 (a * b)

/-- Go `a / b` on `int`: panics on a zero divisor, truncates toward zero. -/
def goDiv (a b : Int) : Except Panic Int :=
  if b = 0 then .error .divZero else .ok (wrap64 (Int.tdiv a b))

/-- Go `a % b` on `int`: panics on a zero divisor, the sign follows the dividend. -/
def goMod (a b : Int) : Except Panic Int :=
  if b = 0 then .error .divZero else .ok (Int.tmod a b)

/-- The Go loop `for i := 0; i < n; i++ { body }`, run as `forLoop body n.toNat 0 s`:
the first argument counts the iterations left, the second is `i`. -/
def forLoop {σ : Type} (body : Int → σ → Except Panic σ) : Nat → Int → σ → Except Panic σ
  | 0, _, s => .ok s
  | k + 1, i, s =>
    match body i s with
    | .error e => .error e
    | .ok s1 => forLoop body k (i + 1) s1

/-! ## container/ring -/

/-- A `*ring.Ring`: the element values from the pointed element onwards. -/
abbrev Ring := List (Option Int)

/-- The call `ring.New(n)`: nil for `n <= 0`, otherwise `n` elements holding nil. -/
def Ring.New (n : Int) : Ring := List.replicate n.toNat none

/-- The call `r.Len()`. -/
def Ring.Len (r : Ring) : Int := (r.length : Int)

/-- The call `r.Next()`. -/
def Ring.Next : Ring → Except Panic Ring
  | [] => .error .nilDeref
  | x :: xs => .ok (xs ++ [x])

/-- The call `r.Prev()`. -/
def Ring.Prev : Ring → Except Panic Ring
  | [] => .error .nilDeref
  | x :: xs => .ok ((x :: xs).getLast (List.cons_ne_nil x xs) :: (x :: xs).dropLast)

/-- The read `r.Value`. -/
def Ring.getValue : Ring → Except Panic (Option Int)
  | [] => .error .nilDeref
  | x :: _ => .ok x

/-- The assignment `r.Value = v`. -/
def Ring.setValue (v : Option Int) : Ring → Except Panic Ring
  | [] => .error .nilDeref
  | _ :: xs => .ok (v :: xs)

/-- The call `r.Do(f)`: the values `f` is called on, in order. -/
def Ring.Do (r : Ring) : List (Option Int) := r

/-- The call `r.Do(f)` for a closure `f` that updates captured variables `s`. -/
def Ring.DoM {σ : Type} (f : σ → Option Int → Except Panic σ) : Ring → σ → Except Panic σ
  | [], s => .ok s
  | p :: ps, s =>
    match f s p with
    | .error e => .error e
    | .ok s1 => Ring.DoM f ps s1

/-! ## lipgloss.Style -/

/-- What the code reads back from a `lipgloss.Style`. -/
structure Style where
  width : Int
  height : Int
  frameW : Int
  frameH : Int
  deriving DecidableEq

/-- The style `lipgloss.NewStyle().Align(lipgloss.Center)`. -/
def Style.NewStyle : Style := { width := 0, height := 0, frameW := 0, frameH := 0 }

/-- The call `s.Width(i)`; lipgloss stores `max(0, i)`. -/
def Style.Width (s : Style) (i : Int) : Style := { s with width := max 0 i }

/-- The call `s.Height(i)`; lipgloss stores `max(0, i)`. -/
def Style.Height (s : Style) (i : Int) : Style := { s with height := max 0 i }

/-- The call `s.GetWidth()`. -/
def Style.GetWidth (s : Style) : Int := s.width

/-- The call `s.GetHeight()`. -/
def Style.GetHeight (s : Style) : Int := s.height

/-- The call `s.GetFrameSize()`: horizontal, then vertical. -/
def Style.GetFrameSize (s : Style) : Int × Int := (s.frameW, s.frameH)

/-! ## The model -/

/-- The struct `graph`. -/
structure graph where
  greatestY : Int
  Inverted : Bool
  maxX : Int
  Style : Style
  yValues : Ring
  deriving DecidableEq

/-- The struct `Model`. -/
structure Model where
  Graph : graph
  id : Int
  Style : Style
  deriving DecidableEq

/-- The struct `UpdateMessage`, without its time stamp. -/
structure UpdateMessage where
  ID : Int
  YValue : Int
  deriving DecidableEq

/-- A `tea.Cmd` of this package: nil, or a command whose message is an `UpdateMessage`. -/
abbrev Cmd := Option UpdateMessage

/-- The function `nextID`, on the counter `lastID`: the new counter, which is the id. -/
def nextID (lastID : Int) : Int := goAdd lastID 1

/-- The body `r.Value = 0; r = r.Next()` of the fill loop of `New` and `SetSize`. -/
def zeroStep (_i : Int) (r : Ring) : Except Panic Ring :=
  match Ring.setValue (some 0) r with
  | .error e => .error e
  | .ok r1 => Ring.Next r1

/-- The loop `for i := 0; i < n; i++ { r.Value = 0; r = r.Next() }` of `New` and `SetSize`. -/
def zeroFill (n : Int) (r : Ring) : Except Panic Ring :=
  forLoop zeroStep n.toNat 0 r

/-- The function `New`, given the package counter `lastID`. -/
def New (lastID : Int) : Except Panic Model :=
  match zeroFill 100 (Ring.New 100) with
  | .error e => .error e
  | .ok yValues =>
    .ok { Graph := { greatestY := 0, Inverted := false, maxX := 0,
                     Style := Style.NewStyle, yValues := yValues },
          id := nextID lastID,
          Style := Style.NewStyle }

/-- The method `WithAutoScale`. -/
def Model.WithAutoScale (m : Model) : Model :=
  { m with Graph := { m.Graph with maxX := 0 } }

/-- The method `WithMaxScale`. -/
def Model.WithMaxScale (m : Model) (max : Int) : Model :=
  { m with Graph := { m.Graph with maxX := max } }

/-- The method `update`: a command whose message carries `id`. -/
def Model.update (_m : Model) (id : Int) : Cmd := some { ID := id, YValue := 0 }

/-- The closure that `AddNextValue` passes to `Do`, on the captured `greatestY`. -/
def maxStep (greatestY : Int) (p : Option Int) : Except Panic Int :=
  match p with
  | none => .error .typeAssert
  | some v => .ok (if v > greatestY then v else greatestY)

/-- The method `AddNextValue`: the model it leaves behind and the command it returns. -/
def Model.AddNextValue (m : Model) (yValue : Int) : Except Panic (Model × Cmd) :=
  match Ring.setValue (some yValue) m.Graph.yValues with
  | .error e => .error e
  | .ok r1 =>
    match Ring.Next r1 with
    | .error e => .error e
    | .ok r2 =>
      match Ring.DoM maxStep r2 0 with
      | .error e => .error e
      | .ok g =>
        let m1 : Model := { m with Graph := { m.Graph with yValues := r2, greatestY := g } }
        .ok (m1, m1.update m1.id)

/-- One pass of the copy loop of `SetSize` (the body of `for i := 0; i < n; i++`),
on the pair of the new and the old ring pointer. -/
def copyStep (width : Int) (i : Int) (st : Ring × Ring) : Except Panic (Ring × Ring) :=
  if i ≤ width then
    match Ring.getValue st.2 with
    | .error e => .error e
    | .ok v =>
      match Ring.setValue v st.1 with
      | .error e => .error e
      | .ok a =>
        match Ring.Prev a with
        | .error e => .error e
        | .ok a1 =>
          match Ring.Prev st.2 with
          | .error e => .error e
          | .ok b1 => .ok (a1, b1)
  else .ok st

/-- The method `SetSize`. -/
def Model.SetSize (m : Model) (w h : Int) : Except Panic Model :=
  let style := (m.Style.Width w).Height h
  let width := goSub w 2
  let gstyle := (m.Graph.Style.Width width).Height (goSub h 2)
  match zeroFill width (Ring.New width) with
  | .error e => .error e
  | .ok newYValues =>
    let n := Ring.Len m.Graph.yValues
    match forLoop (copyStep width) n.toNat 0 (newYValues, m.Graph.yValues) with
    | .error e => .error e
    | .ok st =>
      .ok { m with Style := style, Graph := { m.Graph with Style := gstyle, yValues := st.1 } }

/-! ## The glyph table and the render -/

/-- The table `remainderRune`; a key outside the table gives the empty string
(the zero value of a Go map lookup). -/
def remainderRune (r : Int) (inverted : Bool) : String :=
  if r = 0 then (if inverted then "⣿" else "⣿")
  else if r = 1 then (if inverted then "⠈" else "⢀")
  else if r = 2 then (if inverted then "⠘" else "⢠")
  else if r = 3 then (if inverted then "⠸" else "⢰")
  else if r = 4 then (if inverted then "⢸" else "⢸")
  else if r = 5 then (if inverted then "⢹" else "⣸")
  else if r = 6 then (if inverted then "⢹" else "⣸")
  else if r = 7 then (if inverted then "⢻" else "⣼")
  else if r = 8 then (if inverted then "⢻" else "⣼")
  else if r = 9 then (if inverted then "⢿" else "⣾")
  else ""

/-- The grid `runes`: a list of columns, each a list of cells, top row first. -/
abbrev Runes := List (List String)

/-- The assignment `runes[x][y] = s`. -/
def setCell (runes : Runes) (x y : Int) (s : String) : Except Panic Runes :=
  if x < 0 ∨ (runes.length : Int) ≤ x then .error .indexRange
  else
    let col := runes.getD x.toNat []
    if y < 0 ∨ (col.length : Int) ≤ y then .error .indexRange
    else .ok (runes.set x.toNat (col.set y.toNat s))

/-- The read `runes[x][y]`. -/
def getCell (runes : Runes) (x y : Int) : Except Panic String :=
  if x < 0 ∨ (runes.length : Int) ≤ x then .error .indexRange
  else
    let col := runes.getD x.toNat []
    if y < 0 ∨ (col.length : Int) ≤ y then .error .indexRange
    else .ok (col.getD y.toNat "")

/-- The scale rule of `View` (the two divisions and the clamp to `h`). -/
def scaleY (g : graph) (h y : Int) : Except Panic Int :=
  match (if g.maxX ≠ 0 then goDiv (goMul y h) g.maxX
         else if g.greatestY ≠ 0 then goDiv (goMul y h) g.greatestY
         else .ok y) with
  | .error e => .error e
  | .ok y1 => .ok (if y1 > h then h else y1)

/-- The body of the loop `for i := 0; i < y; i++` of `View`, for column `xIndex`. -/
def fillStep (g : graph) (h y xIndex : Int) (i : Int) (runes : Runes) : Except Panic Runes :=
  let yIndex := if g.Inverted then i else h - 1 - i
  if i < y - 1 then setCell runes xIndex yIndex "⣿"
  else
    match goMod y h with
    | .error e => .error e
    | .ok yRemainder => setCell runes xIndex yIndex (remainderRune yRemainder g.Inverted)

/-- The closure that `View` passes to `Do`, on the pair of `runes` and `xIndex`. -/
def viewStep (g : graph) (h : Int) (st : Runes × Int) (p : Option Int) :
    Except Panic (Runes × Int) :=
  match p with
  | none => .error .typeAssert
  | some y0 =>
    if y0 = 0 then .ok st
    else
      match scaleY g h y0 with
      | .error e => .error e
      | .ok y =>
        match forLoop (fillStep g h y st.2) y.toNat 0 st.1 with
        | .error e => .error e
        | .ok runes => .ok (runes, st.2 + 1)

/-- The width and height `View` renders at: the style's size less its frame, not below zero. -/
def Model.viewSize (m : Model) : Int × Int :=
  let w := m.Graph.Style.GetWidth
  let h := m.Graph.Style.GetHeight
  let pw := m.Graph.Style.GetFrameSize.1
  let ph := m.Graph.Style.GetFrameSize.2
  let w := w - pw
  let w := if w < 0 then 0 else w
  let h := h - ph
  let h := if h < 0 then 0 else h
  (w, h)

/-- The grid `runes` of `View` when the `Do` loop has ended. -/
def Model.viewRunes (m : Model) : Except Panic Runes :=
  let h := m.viewSize.2
  let runes : Runes :=
    List.replicate (Ring.Len m.Graph.yValues).toNat (List.replicate h.toNat " ")
  match Ring.DoM (viewStep m.Graph h) m.Graph.yValues (runes, 0) with
  | .error e => .error e
  | .ok st => .ok st.1

/-- The text `sb.String()` that `View` builds from a grid: `h` rows of `w` cells. -/
def serialize (runes : Runes) (w h : Int) : Except Panic String :=
  forLoop (fun i sb =>
    match forLoop (fun j sb1 =>
            match getCell runes j i with
            | .error e => .error e
            | .ok c => .ok (sb1 ++ c)) w.toNat 0 sb with
    | .error e => .error e
    | .ok sb2 => .ok (sb2 ++ "\n")) h.toNat 0 ""

/-- The method `View`, up to the text handed to the two `Render` calls. -/
def Model.View (m : Model) : Except Panic String :=
  match m.viewRunes with
  | .error e => .error e
  | .ok runes => serialize runes m.viewSize.1 m.viewSize.2

/-- The models after `AddNextValue` of each value of a list, in order. -/
def Model.addValues (m : Model) : List Int → Except Panic Model
  | [] => .ok m
  | v :: vs =>
    match m.AddNextValue v with
    | .error e => .error e
    | .ok r => Model.addValues r.1 vs

/-! ## Vocabulary of the statements -/

/-- The value of `greatestY` after the scan of `AddNextValue` over a ring of ints,
started at `g`. -/
def maxFrom (g : Int) (ys : List Int) : Int :=
  ys.foldl (fun g v => if v > g then v else g) g

/-- The number of cells of a column that are not the blank `" "`. -/
def filledCells (col : List String) : Nat := col.countP (fun c => c != " ")

/-- The cells of a column of height `H` in which `Y` rows are filled, top row
first: the closed form of what the fill loop of `View` leaves in a blank column. -/
def columnOf (inverted : Bool) (H Y : Nat) : List String :=
  if Y = 0 then List.replicate H " "
  else if inverted then
    List.replicate (Y - 1) "⣿" ++
      remainderRune (Int.tmod (Y : Int) (H : Int)) true :: List.replicate (H - Y) " "
  else
    List.replicate (H - Y) " " ++
      remainderRune (Int.tmod (Y : Int) (H : Int)) false :: List.replicate (Y - 1) "⣿"

/-- The number of rows the closure of `View` fills for the sample `y0`. -/
def rowsOf (g : graph) (h y0 : Int) : Nat :=
  match scaleY g h y0 with
  | .ok y => y.toNat
  | .error _ => 0

/-- The grid `View` builds for a ring of ints, in closed form: the columns of the
non-zero samples in traversal order, then blank columns. -/
def gridOf (g : graph) (H : Nat) (ys : List Int) : Runes :=
  ((ys.filter (fun y => y != 0)).map fun y0 => columnOf g.Inverted H (rowsOf g (H : Int) y0)) ++
    List.replicate (ys.length - (ys.filter (fun y => y != 0)).length) (List.replicate H " ")

/-- The values met from the pointed element following the `prev` links once around. -/
def back : Ring → Ring
  | [] => []
  | x :: xs => x :: xs.reverse

/-- The ring that `SetSize` leaves for graph width `k >= 1` and old ring `o`, in
closed form: seen along the `prev` links, the last `k` of `k` zeroes followed by
the first `min n (k + 1)` values of the old ring seen along its `prev` links. -/
def resized (k : Nat) (o : Ring) : Ring :=
  back ((List.replicate k (some 0) ++ (back o).take (min o.length (k + 1))).drop
    (min o.length (k + 1)))

/-- A model holding the ring `r`, with the other fields as `New` sets them and id 1. -/
def modelOf (r : Ring) : Model :=
  { Graph := { greatestY := 0, Inverted := false, maxX := 0,
               Style := Style.NewStyle, yValues := r },
    id := 1,
    Style := Style.NewStyle }

/-- A model holding the ring `r`, with graph style of width `w` and height `h`
and with ceiling `maxX`; the other fields as in `modelOf`. -/
def modelWith (r : Ring) (w h maxX : Int) : Model :=
  { modelOf r with
    Graph := { (modelOf r).Graph with
      maxX := maxX,
      Style := ((modelOf r).Graph.Style.Width w).Height h } }

/-! ## Update -/

/-- A `tea.Msg` as `Update` sees it: an `UpdateMessage`, or a message of another type. -/
inductive Msg where
  | updateMessage (u : UpdateMessage)
  | other
  deriving DecidableEq

/-- The call `tea.Batch(cmds...)` on the commands `Update` collects (at most
one): nil when no command is left after the nil ones are dropped, otherwise a
command that delivers the message of the command collected. -/
def Batch (cmds : List Cmd) : Cmd := (cmds.filterMap id).head?

/-- The method `Init`. -/
def Model.Init (m : Model) : Cmd := m.update m.id

/-- The method `ID`. -/
def Model.ID (m : Model) : Int := m.id

/-- The method `Update`. -/
def Model.Update (m : Model) (msg : Msg) : Model × Cmd :=
  let cmds : List Cmd := []
  match msg with
  | .updateMessage u =>
    if u.ID ≠ m.id then (m, none)
    else
      let cmds := cmds ++ [m.update m.id]
      (m, Batch cmds)
  | .other => (m, Batch cmds)

/-! ## Chains of calls and the vocabulary of the later statements -/

/-- The models at the end of a chain of calls that starts with `New`, each later
call (`AddNextValue`, `SetSize`, `WithAutoScale`, `WithMaxScale`) being made on
the model the call before it returned or left behind and returning.  Along such
a chain no value is inserted through another copy of the model, so the ring a
model sees is the ring its own calls built; the models that share a ring are
followed by `World` below. -/
inductive ChainReachable : Model → Prop where
  | new (lastID : Int) (m : Model) : New lastID = .ok m → ChainReachable m
  | addNextValue (m m1 : Model) (v : Int) (c : Cmd) :
      ChainReachable m → m.AddNextValue v = .ok (m1, c) → ChainReachable m1
  | setSize (m m1 : Model) (w h : Int) :
      ChainReachable m → m.SetSize w h = .ok m1 → ChainReachable m1
  | withAutoScale (m : Model) : ChainReachable m → ChainReachable m.WithAutoScale
  | withMaxScale (m : Model) (max : Int) :
      ChainReachable m → ChainReachable (m.WithMaxScale max)

/-- The assignment `m.Graph.Inverted = b` that a caller makes on the exported field. -/
def Model.setInverted (m : Model) (b : Bool) : Model :=
  { m with Graph := { m.Graph with Inverted := b } }

/-- The vertical mirror of a cell, in the words of the mirror claim: blank to
blank, the full glyph to the full glyph, each upright table glyph to the
upside-down glyph of the same remainder level; any other text is kept. -/
def mirrorGlyph (s : String) : String :=
  if s = "⢀" then "⠈"
  else if s = "⢠" then "⠘"
  else if s = "⢰" then "⠸"
  else if s = "⣸" then "⢹"
  else if s = "⣼" then "⢻"
  else if s = "⣾" then "⢿"
  else s

/-- The cell `runes[x][i]` of a grid, the empty string outside the grid. -/
def cellAt (runes : Runes) (x i : Nat) : String := (runes.getD x []).getD i ""

/-- The model `SetSize(w, h)` returns when it leaves the ring `r`. -/
def setSizeResult (m : Model) (w h : Int) (r : Ring) : Model :=
  { m with
    Style := (m.Style.Width w).Height h,
    Graph := { m.Graph with
      Style := (m.Graph.Style.Width (goSub w 2)).Height (goSub h 2),
      yValues := r } }

/-- What every model at the end of a chain of calls satisfies: `greatestY` is
not negative, the ring holds ints none of which exceeds `greatestY`, the graph
style has no frame and its width is between zero and the ring length. -/
def WellFormed (m : Model) : Prop :=
  0 ≤ m.Graph.greatestY ∧
  (∃ ys : List Int, m.Graph.yValues = ys.map some ∧ ∀ y ∈ ys, y ≤ m.Graph.greatestY) ∧
  m.Graph.Style.frameW = 0 ∧ m.Graph.Style.frameH = 0 ∧
  0 ≤ m.Graph.Style.width ∧ m.Graph.Style.width ≤ Ring.Len m.Graph.yValues

/-! ## Models that share a ring

A Go `Model` is a struct that holds a pointer to its ring.  The value-receiver
methods `WithAutoScale` and `WithMaxScale` return a copy of the model that
points to the same ring element, the receiver staying as it was, and
`AddNextValue` (pointer receiver) writes into that shared ring.  A `World` is
the program state that keeps this apart: the rings in a heap and the model
values in a list, each with the address of its ring and the offset of the
element it points to. -/

/-- A `Model` value of the running program: its fields, the ring as a pointer. -/
structure Var where
  greatestY : Int
  Inverted : Bool
  maxX : Int
  graphStyle : Style
  id : Int
  style : Style
  addr : Nat
  off : Nat
  deriving DecidableEq

/-- The program state: the rings, each as its elements' values in the order of
the `next` links from its first element (a nil ring has none), and the model
values created so far. -/
structure World where
  heap : List Ring
  vars : List Var

/-- The state before the first call. -/
def World.empty : World := { heap := [], vars := [] }

/-- The model value with the fields of `m` whose ring pointer is `addr`, `off`. -/
def Var.ofModel (m : Model) (addr off : Nat) : Var :=
  { greatestY := m.Graph.greatestY, Inverted := m.Graph.Inverted, maxX := m.Graph.maxX,
    graphStyle := m.Graph.Style, id := m.id, style := m.Style, addr := addr, off := off }

/-- The ring at `addr` as seen from its element at offset `off`. -/
def World.ringAt (W : World) (addr off : Nat) : Ring :=
  (W.heap.getD addr []).drop off ++ (W.heap.getD addr []).take off

/-- The `Model` that a model value is in the present state of the heap. -/
def World.read (W : World) (v : Var) : Model :=
  { Graph := { greatestY := v.greatestY, Inverted := v.Inverted, maxX := v.maxX,
               Style := v.graphStyle, yValues := W.ringAt v.addr v.off },
    id := v.id,
    Style := v.style }

/-- One call of the program; `i` is the index of the model value it is made on. -/
inductive Op where
  | new (lastID : Int)
  | copy (i : Nat)
  | setSize (i : Nat) (w h : Int)
  | withAutoScale (i : Nat)
  | withMaxScale (i : Nat) (max : Int)
  | addNextValue (i : Nat) (v : Int)

/-- The state after one call.  `New` and `SetSize` allocate a ring and add a
model value pointing to its first element, `SetSize` reading the receiver's
ring and writing the new one only; the assignment of a model to another
variable, `WithAutoScale` and `WithMaxScale` add a model value that points where
the receiver points; `AddNextValue` writes the value into the slot the receiver
points to, for every model value sharing the ring to see, then moves the
receiver's pointer and sets the receiver's `greatestY`, no other model value
changing.  A call on an index that names no model value leaves the state as it
is. -/
def World.step (W : World) : Op → Except Panic World
  | .new lastID =>
    match New lastID with
    | .error e => .error e
    | .ok m =>
      .ok { heap := W.heap ++ [m.Graph.yValues],
            vars := W.vars ++ [Var.ofModel m W.heap.length 0] }
  | .setSize i w h =>
    match W.vars[i]? with
    | none => .ok W
    | some v =>
      match (W.read v).SetSize w h with
      | .error e => .error e
      | .ok m1 =>
        .ok { heap := W.heap ++ [m1.Graph.yValues],
              vars := W.vars ++ [Var.ofModel m1 W.heap.length 0] }
  | .copy i =>
    match W.vars[i]? with
    | none => .ok W
    | some v => .ok { W with vars := W.vars ++ [v] }
  | .withAutoScale i =>
    match W.vars[i]? with
    | none => .ok W
    | some v =>
      .ok { W with vars := W.vars ++ [Var.ofModel (W.read v).WithAutoScale v.addr v.off] }
  | .withMaxScale i max =>
    match W.vars[i]? with
    | none => .ok W
    | some v =>
      .ok { W with vars := W.vars ++ [Var.ofModel ((W.read v).WithMaxScale max) v.addr v.off] }
  | .addNextValue i x =>
    match W.vars[i]? with
    | none => .ok W
    | some v =>
      match (W.read v).AddNextValue x with
      | .error e => .error e
      | .ok r =>
        .ok { heap := W.heap.set v.addr ((W.heap.getD v.addr []).set v.off (some x)),
              vars := W.vars.set i
                (Var.ofModel r.1 v.addr ((v.off + 1) % (W.heap.getD v.addr []).length)) }

/-- The state after a list of calls, in order. -/
def World.run : List Op → World → Except Panic World
  | [], W => .ok W
  | op :: ops, W =>
    match W.step op with
    | .error e => .error e
    | .ok W1 => World.run ops W1

/-- The states reachable from the start through `New`, `AddNextValue`, `SetSize`,
`WithAutoScale`, `WithMaxScale` and the copying of model values, every call
returning. -/
def Reachable (W : World) : Prop := ∃ ops, World.run ops World.empty = .ok W

/-- What every model value of a reachable state satisfies, given the heap: it
points into a ring of the heap, its `greatestY` is not negative, and its graph
style has no frame and a width between zero and the ring length. -/
def Var.WellFormed (heap : List Ring) (v : Var) : Prop :=
  v.addr < heap.length ∧
  ((heap.getD v.addr []).length ≠ 0 → v.off < (heap.getD v.addr []).length) ∧
  ((heap.getD v.addr []).length = 0 → v.off = 0) ∧
  0 ≤ v.greatestY ∧
  v.graphStyle.frameW = 0 ∧ v.graphStyle.frameH = 0 ∧
  0 ≤ v.graphStyle.width ∧ v.graphStyle.width ≤ ((heap.getD v.addr []).length : Int)

/-- What every reachable state satisfies: every ring holds ints, and every model
value is well formed. -/
def World.WellFormed (W : World) : Prop :=
  (∀ r ∈ W.heap, ∀ p ∈ r, ∃ y : Int, p = some y) ∧
  ∀ v ∈ W.vars, Var.WellFormed W.heap v

end Graph

namespace Graph

/-! ## Lemmas on the ring operations -/

theorem forLoop_zeroStep (k : Nat) : ∀ (i : Int) (l : Ring), k ≤ l.length →
    forLoop zeroStep k i l = .ok (l.drop k ++ List.replicate k (some 0)) := by
  induction k with
  | zero => intro i l _; simp [forLoop]
  | succ k ih =>
    intro i l hl
    cases l with
    | nil => simp at hl
    | cons x xs =>
      simp only [List.length_cons, Nat.add_le_add_iff_right] at hl
      have hstep : zeroStep i (x :: xs) = .ok (xs ++ [some 0]) := rfl
      simp only [forLoop, hstep]
      rw [ih (i + 1) (xs ++ [some 0]) (by simp; omega)]
      simp [List.drop_append_of_le_length hl, List.replicate_succ]

theorem zeroFill_New (n : Nat) :
    zeroFill (n : Int) (Ring.New (n : Int)) = .ok (List.replicate n (some 0)) := by
  unfold zeroFill Ring.New
  simp only [Int.toNat_ofNat]
  rw [forLoop_zeroStep n 0 _ (by simp)]
  simp

theorem DoM_maxStep (ys : List Int) : ∀ g : Int,
    Ring.DoM maxStep (ys.map some) g = .ok (maxFrom g ys) := by
  induction ys with
  | nil => intro g; simp [Ring.DoM, maxFrom]
  | cons y ys ih =>
    intro g
    simp only [List.map_cons, Ring.DoM, maxStep, ih]
    simp [maxFrom]

theorem AddNextValue_ints (m : Model) (y : Int) (ys : List Int) (v : Int)
    (hm : m.Graph.yValues = (y :: ys).map some) :
    m.AddNextValue v = .ok
      ({ m with Graph := { m.Graph with
            yValues := (ys ++ [v]).map some,
            greatestY := maxFrom 0 (ys ++ [v]) } },
       some { ID := m.id, YValue := 0 }) := by
  unfold Model.AddNextValue
  rw [hm]
  simp only [List.map_cons, Ring.setValue, Ring.Next]
  have h : List.map some ys ++ [some v] = (ys ++ [v]).map some := by simp
  rw [h, DoM_maxStep]
  simp [Model.update]

theorem addValues_ints (vs : List Int) : ∀ (m : Model) (ys : List Int), ys ≠ [] →
    m.Graph.yValues = ys.map some →
    ∃ m1, m.addValues vs = .ok m1 ∧
      m1.Graph.yValues = ((ys ++ vs).drop vs.length).map some := by
  induction vs with
  | nil => intro m ys _ hm; exact ⟨m, rfl, by simpa using hm⟩
  | cons v vs ih =>
    intro m ys hne hm
    cases ys with
    | nil => exact absurd rfl hne
    | cons y ys =>
      simp only [Model.addValues, AddNextValue_ints m y ys v hm]
      obtain ⟨m1, h1, h2⟩ := ih
        { m with Graph := { m.Graph with
            yValues := (ys ++ [v]).map some,
            greatestY := maxFrom 0 (ys ++ [v]) } } (ys ++ [v]) (by simp) rfl
      refine ⟨m1, h1, ?_⟩
      rw [h2]
      simp

theorem maxFrom_ge (ys : List Int) : ∀ g : Int, g ≤ maxFrom g ys := by
  induction ys with
  | nil => intro g; simp [maxFrom]
  | cons y ys ih =>
    intro g
    have h := ih (if y > g then y else g)
    simp only [maxFrom, List.foldl_cons] at h ⊢
    by_cases hc : y > g
    · rw [if_pos hc] at h ⊢; omega
    · rw [if_neg hc] at h ⊢; omega

theorem maxFrom_upper (ys : List Int) : ∀ g : Int, ∀ x ∈ ys, x ≤ maxFrom g ys := by
  induction ys with
  | nil => intro g x hx; simp at hx
  | cons y ys ih =>
    intro g x hx
    have h1 := maxFrom_ge ys (if y > g then y else g)
    have h2 := ih (if y > g then y else g)
    simp only [maxFrom, List.foldl_cons] at h1 h2 ⊢
    rcases List.mem_cons.mp hx with rfl | hx
    · by_cases hc : x > g
      · rw [if_pos hc] at h1 ⊢; omega
      · rw [if_neg hc] at h1 ⊢; omega
    · exact h2 x hx

theorem maxFrom_mem (ys : List Int) : ∀ g : Int, maxFrom g ys = g ∨ maxFrom g ys ∈ ys := by
  induction ys with
  | nil => intro g; simp [maxFrom]
  | cons y ys ih =>
    intro g
    have h := ih (if y > g then y else g)
    simp only [maxFrom, List.foldl_cons] at h ⊢
    rcases h with h | h
    · rw [h]
      split_ifs with hc
      · right; simp
      · left; rfl
    · right; exact List.mem_cons_of_mem _ h

/-! ## Lemmas on the render -/

theorem forLoop_succ {σ : Type} (body : Int → σ → Except Panic σ) (k : Nat) (i : Int) (s : σ) :
    forLoop body (k + 1) i s =
      match body i s with
      | .error e => .error e
      | .ok s1 => forLoop body k (i + 1) s1 := rfl

theorem setCell_ok (runes : Runes) (x y : Nat) (s : String) (c : List String)
    (hx : x < runes.length) (hc : runes.getD x [] = c) (hy : y < c.length) :
    setCell runes (x : Int) (y : Int) s = .ok (runes.set x (c.set y s)) := by
  unfold setCell
  rw [if_neg (by omega)]
  simp only [Int.toNat_ofNat, hc]
  rw [if_neg (by omega)]

theorem drop_set_self {α : Type} (c : List α) (n : Nat) (a : α) (h : n < c.length) :
    (c.set n a).drop n = a :: c.drop (n + 1) := by
  rw [List.set_eq_take_cons_drop a h, List.drop_left' (by simp; omega)]

theorem getD_set_self (runes : Runes) (x : Nat) (c : List String) (hx : x < runes.length) :
    (runes.set x c).getD x [] = c := by
  simp [List.getD_eq_getElem?_getD, hx]

theorem fill_upright (g : graph) (hg : g.Inverted = false) (H Y x : Nat) (hY : Y ≤ H) (k : Nat) :
    ∀ (j : Nat) (runes : Runes) (c : List String), j + (k + 1) = Y → x < runes.length →
      runes.getD x [] = c → c.length = H →
      forLoop (fillStep g (H : Int) (Y : Int) (x : Int)) (k + 1) (j : Int) runes =
        .ok (runes.set x (c.take (H - Y) ++
              remainderRune (Int.tmod (Y : Int) (H : Int)) false ::
                (List.replicate k "⣿" ++ c.drop (H - j)))) := by
  induction k with
  | zero =>
    intro j runes c hj hx hc hlen
    have hidx : (H : Int) - 1 - (j : Int) = ((H - Y : Nat) : Int) := by omega
    have hstep : fillStep g (H : Int) (Y : Int) (x : Int) (j : Int) runes =
        .ok (runes.set x (c.set (H - Y) (remainderRune (Int.tmod (Y : Int) (H : Int)) false))) := by
      unfold fillStep
      rw [if_neg (by omega)]
      have hm : goMod (Y : Int) (H : Int) = .ok (Int.tmod (Y : Int) (H : Int)) := by
        unfold goMod; rw [if_neg (by omega)]
      simp only [hm, hg, hidx, Bool.false_eq_true, if_false]
      exact setCell_ok runes x (H - Y) _ c hx hc (by omega)
    rw [forLoop_succ, hstep]
    simp only [forLoop]
    rw [List.set_eq_take_cons_drop _ (show H - Y < c.length by omega)]
    have : H - Y + 1 = H - j := by omega
    rw [this]
    simp
  | succ k ih =>
    intro j runes c hj hx hc hlen
    have hidx : (H : Int) - 1 - (j : Int) = ((H - 1 - j : Nat) : Int) := by omega
    have hstep : fillStep g (H : Int) (Y : Int) (x : Int) (j : Int) runes =
        .ok (runes.set x (c.set (H - 1 - j) "⣿")) := by
      unfold fillStep
      rw [if_pos (by omega)]
      simp only [hg, hidx, Bool.false_eq_true, if_false]
      exact setCell_ok runes x (H - 1 - j) _ c hx hc (by omega)
    have hcast : ((j : Int) + 1) = ((j + 1 : Nat) : Int) := by simp
    rw [forLoop_succ, hstep]
    simp only []
    rw [hcast, ih (j + 1) _ (c.set (H - 1 - j) "⣿") (by omega) (by simpa using hx)
      (getD_set_self _ _ _ hx) (by simpa using hlen)]
    rw [List.set_set, List.take_set_of_lt _ _ (by omega)]
    have h1 : H - (j + 1) = H - 1 - j := by omega
    rw [h1, drop_set_self _ _ _ (by omega)]
    have h2 : H - 1 - j + 1 = H - j := by omega
    rw [h2]
    simp [List.replicate_succ']

theorem take_succ_set_self {α : Type} (c : List α) (n : Nat) (a : α) (h : n < c.length) :
    (c.set n a).take (n + 1) = c.take n ++ [a] := by
  rw [List.set_eq_take_cons_drop a h, List.take_append_eq_append_take]
  have hl : min n c.length = n := by omega
  simp [List.take_take, hl]

theorem fill_inverted (g : graph) (hg : g.Inverted = true) (H Y x : Nat) (hY : Y ≤ H) (k : Nat) :
    ∀ (j : Nat) (runes : Runes) (c : List String), j + (k + 1) = Y → x < runes.length →
      runes.getD x [] = c → c.length = H →
      forLoop (fillStep g (H : Int) (Y : Int) (x : Int)) (k + 1) (j : Int) runes =
        .ok (runes.set x (c.take j ++
              (List.replicate k "⣿" ++
                remainderRune (Int.tmod (Y : Int) (H : Int)) true :: c.drop Y))) := by
  induction k with
  | zero =>
    intro j runes c hj hx hc hlen
    have hstep : fillStep g (H : Int) (Y : Int) (x : Int) (j : Int) runes =
        .ok (runes.set x (c.set j (remainderRune (Int.tmod (Y : Int) (H : Int)) true))) := by
      unfold fillStep
      rw [if_neg (by omega)]
      have hm : goMod (Y : Int) (H : Int) = .ok (Int.tmod (Y : Int) (H : Int)) := by
        unfold goMod; rw [if_neg (by omega)]
      simp only [hm, hg, if_true]
      exact setCell_ok runes x j _ c hx hc (by omega)
    rw [forLoop_succ, hstep]
    simp only [forLoop]
    rw [List.set_eq_take_cons_drop _ (show j < c.length by omega)]
    have : j + 1 = Y := by omega
    rw [this]
    simp
  | succ k ih =>
    intro j runes c hj hx hc hlen
    have hstep : fillStep g (H : Int) (Y : Int) (x : Int) (j : Int) runes =
        .ok (runes.set x (c.set j "⣿")) := by
      unfold fillStep
      rw [if_pos (by omega)]
      simp only [hg, if_true]
      exact setCell_ok runes x j _ c hx hc (by omega)
    have hcast : ((j : Int) + 1) = ((j + 1 : Nat) : Int) := by simp
    rw [forLoop_succ, hstep]
    simp only []
    rw [hcast, ih (j + 1) _ (c.set j "⣿") (by omega) (by simpa using hx)
      (getD_set_self _ _ _ hx) (by simpa using hlen)]
    rw [List.set_set, take_succ_set_self _ _ _ (by omega), List.drop_set, if_pos (by omega)]
    simp [List.replicate_succ]

theorem remainderRune_ne_blank (r : Int) (b : Bool) : (remainderRune r b != " ") = true := by
  by_cases h : 0 ≤ r ∧ r ≤ 9
  · obtain ⟨h0, h9⟩ := h
    interval_cases r <;> cases b <;> decide
  · unfold remainderRune
    rw [if_neg (by omega), if_neg (by omega), if_neg (by omega), if_neg (by omega),
      if_neg (by omega), if_neg (by omega), if_neg (by omega), if_neg (by omega),
      if_neg (by omega), if_neg (by omega)]
    decide

theorem filledCells_replicate_blank (n : Nat) : filledCells (List.replicate n " ") = 0 := by
  simp [filledCells, List.countP_replicate]

theorem filledCells_replicate_full (n : Nat) : filledCells (List.replicate n "⣿") = n := by
  simp [filledCells, List.countP_replicate]

theorem filledCells_append (a b : List String) :
    filledCells (a ++ b) = filledCells a + filledCells b := by
  simp [filledCells]

theorem filledCells_columnOf (b : Bool) (H Y : Nat) : filledCells (columnOf b H Y) = Y := by
  unfold columnOf
  by_cases hY : Y = 0
  · rw [if_pos hY, filledCells_replicate_blank, hY]
  · rw [if_neg hY]
    have hcons : ∀ (r : Int) (i : Bool) (l : List String),
        filledCells (remainderRune r i :: l) = filledCells l + 1 := by
      intro r i l
      simp [filledCells, List.countP_cons, remainderRune_ne_blank]
    cases b
    · simp only [Bool.false_eq_true, if_false, filledCells_append, hcons,
        filledCells_replicate_blank, filledCells_replicate_full]
      omega
    · simp only [if_true, filledCells_append, hcons,
        filledCells_replicate_blank, filledCells_replicate_full]
      omega

theorem set_getD_self (runes : Runes) (x : Nat) (c : List String) (hx : x < runes.length)
    (hc : runes.getD x [] = c) : runes.set x c = runes := by
  apply List.ext_getElem (by simp)
  intro n h1 h2
  rw [List.getElem_set]
  split_ifs with h
  · subst h
    rw [← hc]
    simp [List.getD_eq_getElem?_getD, hx]
  · rfl

theorem fill_blank_column (g : graph) (H Y x : Nat) (hY : Y ≤ H) (runes : Runes)
    (hx : x < runes.length) (hc : runes.getD x [] = List.replicate H " ") :
    forLoop (fillStep g (H : Int) (Y : Int) (x : Int)) Y 0 runes =
      .ok (runes.set x (columnOf g.Inverted H Y)) := by
  cases Y with
  | zero =>
    simp only [forLoop, columnOf, if_true]
    rw [set_getD_self runes x _ hx hc]
  | succ k =>
    have h0 : (0 : Int) = ((0 : Nat) : Int) := rfl
    cases hg : g.Inverted
    · rw [h0, fill_upright g hg H (k + 1) x hY k 0 runes _ (by omega) hx hc (by simp)]
      simp [columnOf]
    · rw [h0, fill_inverted g hg H (k + 1) x hY k 0 runes _ (by omega) hx hc (by simp)]
      simp [columnOf]

theorem scaleY_le (g : graph) (h y0 y : Int) (hs : scaleY g h y0 = .ok y) : y ≤ h := by
  unfold scaleY at hs
  split at hs
  · exact absurd hs (by simp)
  · rename_i y1 _
    have := Except.ok.inj hs
    split_ifs at this <;> omega

theorem viewStep_blank (g : graph) (H x : Nat) (runes : Runes) (y0 y : Int) (hy0 : y0 ≠ 0)
    (hs : scaleY g (H : Int) y0 = .ok y) (hx : x < runes.length)
    (hc : runes.getD x [] = List.replicate H " ") :
    viewStep g (H : Int) (runes, (x : Int)) (some y0) =
      .ok (runes.set x (columnOf g.Inverted H y.toNat), ((x + 1 : Nat) : Int)) := by
  have hle := scaleY_le g _ _ _ hs
  simp only [viewStep, if_neg hy0, hs]
  by_cases hpos : 0 ≤ y
  · obtain ⟨Y, rfl⟩ := Int.eq_ofNat_of_zero_le hpos
    simp only [Int.toNat_ofNat]
    rw [fill_blank_column g H Y x (by omega) runes hx hc]
    simp
  · have : y.toNat = 0 := by omega
    rw [this]
    simp only [forLoop, columnOf, if_true]
    rw [set_getD_self runes x _ hx hc]
    simp

/-! ## Lemmas on the arithmetic and on the resize -/

theorem wrap64_eq (x : Int) (h1 : -2 ^ 63 ≤ x) (h2 : x < 2 ^ 63) : wrap64 x = x := by
  unfold wrap64
  rw [Int.emod_eq_of_lt (by omega) (by omega)]
  omega

theorem tdiv_bounds (a b : Int) (hb : 0 < b) :
    (0 ≤ a → 0 ≤ Int.tdiv a b ∧ Int.tdiv a b ≤ a) ∧
    (a ≤ 0 → a ≤ Int.tdiv a b ∧ Int.tdiv a b ≤ 0) := by
  have hpos : ∀ c : Int, 0 ≤ c → 0 ≤ Int.tdiv c b ∧ Int.tdiv c b ≤ c := by
    intro c hc
    rw [Int.tdiv_eq_ediv hc (le_of_lt hb)]
    exact ⟨Int.ediv_nonneg hc (le_of_lt hb), Int.ediv_le_self b hc⟩
  refine ⟨hpos a, ?_⟩
  intro ha
  have h := hpos (-a) (by omega)
  rw [Int.neg_tdiv] at h
  omega

theorem scaleY_fixed (g : graph) (h y : Int) (hmax : 0 < g.maxX)
    (h1 : -2 ^ 63 ≤ y * h) (h2 : y * h < 2 ^ 63) :
    scaleY g h y =
      .ok (if Int.tdiv (y * h) g.maxX > h then h else Int.tdiv (y * h) g.maxX) := by
  have hb := tdiv_bounds (y * h) g.maxX hmax
  have hq : wrap64 (Int.tdiv (y * h) g.maxX) = Int.tdiv (y * h) g.maxX := by
    apply wrap64_eq <;> by_cases hs : 0 ≤ y * h
    · have := hb.1 hs; omega
    · have := hb.2 (by omega); omega
    · have := hb.1 hs; omega
    · have := hb.2 (by omega); omega
  unfold scaleY goDiv goMul
  rw [if_pos (by omega), if_neg (by omega), wrap64_eq _ h1 h2, hq]

theorem forLoop_copyStep_skip (width : Int) (hw : width < 0) (k : Nat) :
    ∀ (i : Int) (st : Ring × Ring), 0 ≤ i → forLoop (copyStep width) k i st = .ok st := by
  induction k with
  | zero => intro i st _; rfl
  | succ k ih =>
    intro i st hi
    have hstep : copyStep width i st = .ok st := by
      unfold copyStep
      rw [if_neg (by omega)]
    rw [forLoop_succ, hstep]
    exact ih (i + 1) st (by omega)

/-! ## The ring that `SetSize` leaves -/

theorem back_back (l : Ring) : back (back l) = l := by
  cases l with
  | nil => rfl
  | cons x xs => simp [back]

theorem back_replicate (k : Nat) (v : Option Int) :
    back (List.replicate k v) = List.replicate k v := by
  cases k with
  | zero => rfl
  | succ k => simp [back, List.replicate_succ]

theorem back_length (l : Ring) : (back l).length = l.length := by
  cases l with
  | nil => rfl
  | cons x xs => simp [back]

theorem back_perm (l : Ring) : (back l).Perm l := by
  cases l with
  | nil => exact List.Perm.refl _
  | cons x xs => exact List.Perm.cons x (List.reverse_perm xs)

theorem Prev_cons (x : Option Int) (xs : Ring) :
    Ring.Prev (x :: xs) = .ok (back (xs.reverse ++ [x])) := by
  have key : (x :: xs).getLast (List.cons_ne_nil x xs) :: (x :: xs).dropLast =
      back (xs.reverse ++ [x]) := by
    cases xs using List.reverseRecOn with
    | nil => rfl
    | append_singleton ys y =>
      have h1 : (x :: (ys ++ [y])).getLast (List.cons_ne_nil _ _) = y := by
        simp
      have h2 : (x :: (ys ++ [y])).dropLast = x :: ys := by
        rw [← List.cons_append, List.dropLast_concat]
      rw [h1, h2]
      simp [back]
  exact congrArg Except.ok key

theorem copyStep_back (k i : Int) (hi : i ≤ k) (a b : Option Int) (As Bs : Ring) :
    copyStep k i (back (a :: As), back (b :: Bs)) =
      .ok (back (As ++ [b]), back (Bs ++ [b])) := by
  unfold copyStep
  rw [if_pos hi]
  simp only [back, Ring.getValue, Ring.setValue, Prev_cons, List.reverse_reverse]

theorem forLoop_copyStep_back (k : Int) (m : Nat) :
    ∀ (i : Int) (A B : Ring), A ≠ [] → m ≤ B.length → i + (m : Int) ≤ k + 1 →
      forLoop (copyStep k) m i (back A, back B) =
        .ok (back ((A ++ B.take m).drop m), back (B.drop m ++ B.take m)) := by
  induction m with
  | zero => intro i A B _ _ _; simp [forLoop]
  | succ m ih =>
    intro i A B hA hB hi
    cases A with
    | nil => exact absurd rfl hA
    | cons a As =>
      cases B with
      | nil => simp at hB
      | cons b Bs =>
        simp only [List.length_cons, Nat.add_le_add_iff_right] at hB
        rw [forLoop_succ, copyStep_back k i (by omega) a b As Bs]
        simp only []
        rw [ih (i + 1) (As ++ [b]) (Bs ++ [b]) (by simp) (by simp; omega) (by push_cast at hi ⊢; omega)]
        rw [List.take_append_of_le_length hB, List.drop_append_of_le_length hB]
        simp

theorem forLoop_copyStep_past (k : Int) (m : Nat) :
    ∀ (i : Int) (st : Ring × Ring), k < i → forLoop (copyStep k) m i st = .ok st := by
  induction m with
  | zero => intro i st _; rfl
  | succ m ih =>
    intro i st hi
    have hstep : copyStep k i st = .ok st := by
      unfold copyStep
      rw [if_neg (by omega)]
    rw [forLoop_succ, hstep]
    exact ih (i + 1) st (by omega)

theorem forLoop_add {σ : Type} (body : Int → σ → Except Panic σ) (m1 m2 : Nat) :
    ∀ (i : Int) (s : σ), forLoop body (m1 + m2) i s =
      match forLoop body m1 i s with
      | .error e => .error e
      | .ok s1 => forLoop body m2 (i + (m1 : Int)) s1 := by
  induction m1 with
  | zero => intro i s; simp [forLoop]
  | succ m1 ih =>
    intro i s
    have : m1 + 1 + m2 = (m1 + m2) + 1 := by omega
    rw [this, forLoop_succ, forLoop_succ]
    cases body i s with
    | error e => rfl
    | ok s1 =>
      simp only []
      rw [ih]
      have : i + 1 + (m1 : Int) = i + ((m1 + 1 : Nat) : Int) := by push_cast; omega
      rw [this]

/-- The ring that `SetSize` leaves, for a positive graph width `k`. -/
theorem SetSize_ring (m : Model) (w h : Int) (k : Nat) (hk : goSub w 2 = (k : Int))
    (hpos : 1 ≤ k) :
    m.SetSize w h = .ok
      { m with
        Style := (m.Style.Width w).Height h,
        Graph := { m.Graph with
          Style := (m.Graph.Style.Width (goSub w 2)).Height (goSub h 2),
          yValues := resized k m.Graph.yValues } } := by
  unfold Model.SetSize
  simp only [hk, zeroFill_New]
  have hsplit : (Ring.Len m.Graph.yValues).toNat =
      min m.Graph.yValues.length (k + 1) +
        (m.Graph.yValues.length - min m.Graph.yValues.length (k + 1)) := by
    simp [Ring.Len]
  have hloop : forLoop (copyStep (k : Int)) (Ring.Len m.Graph.yValues).toNat 0
      (List.replicate k (some 0), m.Graph.yValues) =
      .ok (resized k m.Graph.yValues,
           back ((back m.Graph.yValues).drop (min m.Graph.yValues.length (k + 1)) ++
                (back m.Graph.yValues).take (min m.Graph.yValues.length (k + 1)))) := by
    rw [hsplit, forLoop_add]
    have h1 := forLoop_copyStep_back (k : Int) (min m.Graph.yValues.length (k + 1)) 0
      (List.replicate k (some 0)) (back m.Graph.yValues)
      (by intro h; have := congrArg List.length h; simp at this; omega)
      (by rw [back_length]; omega) (by omega)
    rw [back_replicate, back_back] at h1
    rw [h1]
    simp only []
    by_cases hn : m.Graph.yValues.length ≤ k + 1
    · have : m.Graph.yValues.length - min m.Graph.yValues.length (k + 1) = 0 := by omega
      rw [this]; rfl
    · exact forLoop_copyStep_past _ _ _ _ (by omega)
  rw [hloop]

/-- Resizing to the current width returns the old ring. -/
theorem resized_same (o : Ring) : resized o.length o = o := by
  unfold resized
  have h1 : min o.length (o.length + 1) = o.length := by omega
  rw [h1, List.take_of_length_le (by rw [back_length]),
    List.drop_left' (by simp), back_back]

/-- Shrinking to `k` columns returns the last `k` values of the old ring with the
newest of them first: the ring of the last `k` values, one step back. -/
theorem resized_shrink (o : Ring) (k : Nat) (hn : k < o.length) :
    resized k o = back ((o.drop (o.length - k)).reverse) := by
  unfold resized
  have h1 : min o.length (k + 1) = k + 1 := by omega
  cases o with
  | nil => simp at hn
  | cons x xs =>
    simp only [List.length_cons] at hn h1 ⊢
    rw [h1, List.drop_append_eq_append_drop]
    have h2 : (xs.length + 1 - k) = (xs.length - k) + 1 := by omega
    simp only [List.length_replicate, List.drop_replicate, back, List.take_succ_cons,
      h2, List.drop_succ_cons]
    have h3 : k - (k + 1) = 0 := by omega
    have h4 : k + 1 - k = 1 := by omega
    rw [h3, h4]
    simp [List.take_reverse]

/-- Growing to `k` columns returns a zero, the old values but the oldest, the
oldest value, and zeroes. -/
theorem resized_grow (x : Option Int) (xs : Ring) (k : Nat) (hn : xs.length + 1 < k) :
    resized k (x :: xs) =
      some 0 :: (xs ++ x :: List.replicate (k - xs.length - 2) (some 0)) := by
  unfold resized
  have h1 : min (x :: xs).length (k + 1) = xs.length + 1 := by simp; omega
  rw [h1, List.take_of_length_le (by rw [back_length]; simp),
    List.drop_append_of_le_length (by simp; omega)]
  have h2 : k - (xs.length + 1) = (k - xs.length - 2) + 1 := by omega
  simp only [List.drop_replicate, h2, List.replicate_succ, List.cons_append, back]
  simp

theorem back_reverse_concat (l : Ring) (a : Option Int) : back ((l ++ [a]).reverse) = a :: l := by
  simp [back]

/-! ## The grid that `View` builds -/

theorem scaleY_ok (g : graph) (h y0 : Int) : ∃ y, scaleY g h y0 = .ok y := by
  unfold scaleY goDiv
  by_cases h1 : g.maxX ≠ 0
  · rw [if_pos h1, if_neg h1]; exact ⟨_, rfl⟩
  · rw [if_neg h1]
    by_cases h2 : g.greatestY ≠ 0
    · rw [if_pos h2, if_neg h2]; exact ⟨_, rfl⟩
    · rw [if_neg h2]; exact ⟨_, rfl⟩

theorem scaleY_rowsOf (g : graph) (h y0 y : Int) (hs : scaleY g h y0 = .ok y) :
    rowsOf g h y0 = y.toNat := by
  simp [rowsOf, hs]

theorem DoM_viewStep (g : graph) (H : Nat) (ys : List Int) :
    ∀ (done : Runes) (b : Nat), ys.length ≤ b →
      Ring.DoM (viewStep g (H : Int)) (ys.map some)
          (done ++ List.replicate b (List.replicate H " "), (done.length : Int)) =
        .ok (done ++
              (((ys.filter (fun y => y != 0)).map fun y0 =>
                  columnOf g.Inverted H (rowsOf g (H : Int) y0)) ++
                List.replicate (b - (ys.filter (fun y => y != 0)).length)
                  (List.replicate H " ")),
             ((done.length + (ys.filter (fun y => y != 0)).length : Nat) : Int)) := by
  induction ys with
  | nil => intro done b _; simp [Ring.DoM]
  | cons y0 ys ih =>
    intro done b hb
    simp only [List.length_cons] at hb
    by_cases hy : y0 = 0
    · subst hy
      have hstep : ∀ st, viewStep g (H : Int) st (some 0) = .ok st := by
        intro st; simp [viewStep]
      simp only [List.map_cons, Ring.DoM, hstep]
      rw [ih done b (by omega)]
      simp
    · obtain ⟨y, hs⟩ := scaleY_ok g (H : Int) y0
      have hx : done.length < (done ++ List.replicate b (List.replicate H " ")).length := by
        simp; omega
      have hc : (done ++ List.replicate b (List.replicate H " ")).getD done.length [] =
          List.replicate H " " := by
        rw [List.getD_eq_getElem?_getD, List.getElem?_append_right (le_refl _), Nat.sub_self,
          List.getElem?_replicate, if_pos (by omega)]
        rfl
      have hset : (done ++ List.replicate b (List.replicate H " ")).set done.length
            (columnOf g.Inverted H y.toNat) =
          (done ++ [columnOf g.Inverted H y.toNat]) ++
            List.replicate (b - 1) (List.replicate H " ") := by
        obtain ⟨b1, rfl⟩ : ∃ b1, b = b1 + 1 := ⟨b - 1, by omega⟩
        rw [List.set_append_right _ _ (le_refl _)]
        simp [List.replicate_succ]
      simp only [List.map_cons, Ring.DoM]
      rw [viewStep_blank g H done.length _ y0 y hy hs hx hc, hset]
      have hlen : ((done.length + 1 : Nat) : Int) =
          (((done ++ [columnOf g.Inverted H y.toNat]).length : Nat) : Int) := by simp
      simp only []
      rw [hlen, ih _ (b - 1) (by omega)]
      have hf : (y0 :: ys).filter (fun y => y != 0) = y0 :: ys.filter (fun y => y != 0) := by
        simp [List.filter_cons, hy]
      rw [hf, ← scaleY_rowsOf g _ _ _ hs]
      simp only [List.map_cons, List.length_cons, List.length_append, List.length_singleton,
        List.append_assoc, List.singleton_append]
      have e1 : b - 1 - (ys.filter (fun y => y != 0)).length =
          b - ((ys.filter (fun y => y != 0)).length + 1) := by omega
      rw [e1]
      refine congrArg Except.ok (Prod.ext rfl ?_)
      simp only [List.length_nil]
      push_cast
      omega

theorem viewSize_height_nonneg (m : Model) : 0 ≤ m.viewSize.2 := by
  unfold Model.viewSize
  simp only
  split_ifs <;> omega

/-- The grid of `View` on a ring of ints. -/
theorem viewRunes_ints (m : Model) (ys : List Int) (hm : m.Graph.yValues = ys.map some) :
    m.viewRunes = .ok (gridOf m.Graph m.viewSize.2.toNat ys) := by
  have hH : m.viewSize.2 = ((m.viewSize.2.toNat : Nat) : Int) :=
    (Int.toNat_of_nonneg (viewSize_height_nonneg m)).symm
  unfold Model.viewRunes
  simp only [hm]
  have hl : (Ring.Len (ys.map some)).toNat = ys.length := by simp [Ring.Len]
  rw [hl]
  have h := DoM_viewStep m.Graph m.viewSize.2.toNat ys [] ys.length (le_refl _)
  simp only [List.nil_append, List.length_nil, Nat.cast_zero, Nat.zero_add] at h
  rw [← hH] at h
  rw [h]
  simp only [gridOf]
  rw [← hH]

/-! ## Lemmas on the outcome of `SetSize` -/

theorem resized_length (k : Nat) (o : Ring) : (resized k o).length = k := by
  unfold resized
  rw [back_length]
  simp [back_length]

theorem resized_perm (k : Nat) (o : Ring) :
    (resized k o).Perm
      (o.drop (o.length - min o.length k) ++ List.replicate (k - min o.length k) (some 0)) := by
  by_cases hn : o.length ≤ k
  · have h1 : min o.length k = o.length := by omega
    have h2 : min o.length (k + 1) = o.length := by omega
    rw [h1]
    unfold resized
    rw [h2, List.take_of_length_le (by rw [back_length]),
      List.drop_append_of_le_length (by simp; omega)]
    simp only [Nat.sub_self, List.drop_zero, List.drop_replicate]
    refine (back_perm _).trans ?_
    refine List.perm_append_comm.trans ?_
    exact List.Perm.append_right _ (back_perm o)
  · have h1 : min o.length k = k := by omega
    rw [h1, resized_shrink o k (by omega)]
    simp only [Nat.sub_self, List.replicate_zero, List.append_nil]
    exact (back_perm _).trans (List.reverse_perm _)

theorem SetSize_pos (m : Model) (w h : Int) (hw : 1 ≤ goSub w 2) :
    m.SetSize w h = .ok (setSizeResult m w h (resized (goSub w 2).toNat m.Graph.yValues)) := by
  obtain ⟨k, hk⟩ := Int.eq_ofNat_of_zero_le (show 0 ≤ goSub w 2 by omega)
  rw [SetSize_ring m w h k hk (by omega)]
  simp only [setSizeResult, hk, Int.toNat_ofNat]

theorem SetSize_neg (m : Model) (w h : Int) (hw : goSub w 2 < 0) :
    m.SetSize w h = .ok (setSizeResult m w h []) := by
  have hz : zeroFill (goSub w 2) (Ring.New (goSub w 2)) = .ok [] := by
    have : (goSub w 2).toNat = 0 := by omega
    simp [zeroFill, Ring.New, this, forLoop]
  unfold Model.SetSize
  simp only [hz]
  rw [forLoop_copyStep_skip _ hw _ 0 _ (le_refl 0)]
  rfl

theorem SetSize_zero_nil (m : Model) (w h : Int) (hw : goSub w 2 = 0)
    (hr : m.Graph.yValues = []) :
    m.SetSize w h = .ok (setSizeResult m w h []) := by
  have hz : zeroFill 0 (Ring.New 0) = .ok [] := rfl
  unfold Model.SetSize
  simp only [hw, hz, hr, setSizeResult]
  rfl

theorem SetSize_zero_cons (m : Model) (w h : Int) (hw : goSub w 2 = 0)
    (hne : m.Graph.yValues ≠ []) :
    m.SetSize w h = .error .nilDeref := by
  unfold Model.SetSize
  simp only [hw]
  cases hr : m.Graph.yValues with
  | nil => exact absurd hr hne
  | cons y ys =>
    have hz : zeroFill 0 (Ring.New 0) = .ok [] := rfl
    have hn : (Ring.Len (y :: ys)).toNat = ys.length + 1 := by
      simp [Ring.Len]
    rw [hz]
    simp only [hn, forLoop_succ]
    rfl

/-- Whenever `SetSize` returns, the model is the old one with the two styles
resized and with the ring `resized` (positive width) or nil. -/
theorem SetSize_ok (m m1 : Model) (w h : Int) (hs : m.SetSize w h = .ok m1) :
    m1 = setSizeResult m w h
      (if 1 ≤ goSub w 2 then resized (goSub w 2).toNat m.Graph.yValues else []) := by
  by_cases hpos : 1 ≤ goSub w 2
  · rw [SetSize_pos m w h hpos] at hs
    rw [if_pos hpos]
    exact (Except.ok.inj hs).symm
  · rw [if_neg hpos]
    by_cases hneg : goSub w 2 < 0
    · rw [SetSize_neg m w h hneg] at hs
      exact (Except.ok.inj hs).symm
    · have h0 : goSub w 2 = 0 := by omega
      by_cases hr : m.Graph.yValues = []
      · rw [SetSize_zero_nil m w h h0 hr] at hs
        exact (Except.ok.inj hs).symm
      · rw [SetSize_zero_cons m w h h0 hr] at hs
        exact absurd hs (by simp)

/-! ## The claims -/

/-- C1: after `N` values are inserted one by one with `AddNextValue` into a
freshly created zero-filled ring of capacity `C >= 1`, the traversal from the
cursor has exactly `C` values: the last `C` inserted values in insertion order
when `N >= C`, otherwise `C - N` zeroes followed by the `N` inserted values.
`New` creates such a ring with `C = 100`. -/
theorem ring_keeps_last_inserted (C : Nat) (hC : 1 ≤ C) (m : Model)
    (hm : zeroFill (C : Int) (Ring.New (C : Int)) = .ok m.Graph.yValues) (vs : List Int) :
    (∃ m1, m.addValues vs = .ok m1 ∧
      (Ring.Do m1.Graph.yValues).length = C ∧
      Ring.Do m1.Graph.yValues =
        (if C ≤ vs.length then (vs.drop (vs.length - C)).map some
         else List.replicate (C - vs.length) (some 0) ++ vs.map some)) ∧
    (∀ lastID : Int, ∃ m0, New lastID = .ok m0 ∧
      zeroFill ((100 : Nat) : Int) (Ring.New ((100 : Nat) : Int)) = .ok m0.Graph.yValues) := by
  constructor
  · rw [zeroFill_New] at hm
    have hr : m.Graph.yValues = (List.replicate C (0 : Int)).map some := by
      have := Except.ok.inj hm
      rw [← this]; simp
    have hne : List.replicate C (0 : Int) ≠ [] := by
      intro h
      have := congrArg List.length h
      simp at this; omega
    obtain ⟨m1, h1, h2⟩ := addValues_ints vs m _ hne hr
    refine ⟨m1, h1, ?_, ?_⟩
    · rw [h2]; simp [Ring.Do]
    · rw [h2]
      simp only [Ring.Do]
      split_ifs with hc
      · rw [List.drop_append_eq_append_drop]
        simp only [List.length_replicate, List.drop_replicate]
        have : C - vs.length = 0 := by omega
        simp [this]
      · rw [List.drop_append_of_le_length (by simp; omega)]
        simp
  · intro lastID
    have h := zeroFill_New 100
    refine ⟨{ Graph := { greatestY := 0, Inverted := false, maxX := 0,
                         Style := Style.NewStyle,
                         yValues := List.replicate 100 (some 0) },
              id := nextID lastID,
              Style := Style.NewStyle }, ?_, h⟩
    simp only [New]
    have h' : zeroFill 100 (Ring.New 100) = .ok (List.replicate 100 (some 0)) := h
    rw [h']

/-- Witness for C1: capacity 2 with three inserts (the last two are kept) and
capacity 3 with one insert (two zeroes, then the value). -/
theorem ring_keeps_last_inserted_witness :
    (∃ m1, (modelOf [some 0, some 0]).addValues [7, 8, 9] = .ok m1 ∧
      (Ring.Do m1.Graph.yValues).length = 2 ∧
      Ring.Do m1.Graph.yValues = [some 8, some 9]) ∧
    (∃ m1, (modelOf [some 0, some 0, some 0]).addValues [7] = .ok m1 ∧
      (Ring.Do m1.Graph.yValues).length = 3 ∧
      Ring.Do m1.Graph.yValues = [some 0, some 0, some 7]) :=
  ⟨(ring_keeps_last_inserted 2 (by decide) (modelOf [some 0, some 0]) rfl [7, 8, 9]).1,
   (ring_keeps_last_inserted 3 (by decide) (modelOf [some 0, some 0, some 0]) rfl [7]).1⟩

/-- C6: `AddNextValue` on a non-empty ring of ints succeeds, and when the ring it
leaves holds a non-negative value (so for non-negative samples) `greatestY` is
the maximum of the values then in the ring: it is one of them and none exceeds
it.  It is the inserted value when that exceeds every value of the window, and
it is below the overwritten value when that was above all that remains. -/
theorem greatestY_is_ring_maximum (m : Model) (y : Int) (ys : List Int) (v : Int)
    (hm : m.Graph.yValues = (y :: ys).map some)
    (hnn : ∃ x ∈ ys ++ [v], 0 ≤ x) :
    ∃ m1 c, m.AddNextValue v = .ok (m1, c) ∧
      Ring.Do m1.Graph.yValues = (ys ++ [v]).map some ∧
      m1.Graph.greatestY ∈ ys ++ [v] ∧
      (∀ x ∈ ys ++ [v], x ≤ m1.Graph.greatestY) ∧
      ((∀ x ∈ y :: ys, x < v) → m1.Graph.greatestY = v) ∧
      ((∀ x ∈ ys ++ [v], x < y) → m1.Graph.greatestY < y) := by
  have hup := maxFrom_upper (ys ++ [v]) 0
  have hmem : maxFrom 0 (ys ++ [v]) ∈ ys ++ [v] := by
    rcases maxFrom_mem (ys ++ [v]) 0 with h0 | h
    · obtain ⟨x, hx, hx0⟩ := hnn
      have hle := hup x hx
      have : x = maxFrom 0 (ys ++ [v]) := by omega
      rw [← this]; exact hx
    · exact h
  refine ⟨_, _, AddNextValue_ints m y ys v hm, rfl, hmem, hup, ?_, ?_⟩
  · intro hlt
    have hv := hup v (by simp)
    rcases List.mem_append.mp hmem with h | h
    · have := hlt _ (List.mem_cons_of_mem _ h)
      simp only at hv this ⊢
      omega
    · simpa using h
  · intro hlt
    exact hlt _ hmem

/-- Witness for C6: the ring 5, 1, 2 (oldest first) receives 3; the former
maximum 5 is overwritten and `greatestY` becomes 3. -/
theorem greatestY_is_ring_maximum_witness :
    ∃ m1 c, (modelOf [some 5, some 1, some 2]).AddNextValue 3 = .ok (m1, c) ∧
      Ring.Do m1.Graph.yValues = (([1, 2] : List Int) ++ [3]).map some ∧
      m1.Graph.greatestY ∈ ([1, 2] : List Int) ++ [3] ∧
      (∀ x ∈ ([1, 2] : List Int) ++ [3], x ≤ m1.Graph.greatestY) ∧
      ((∀ x ∈ (5 : Int) :: [1, 2], x < 3) → m1.Graph.greatestY = 3) ∧
      ((∀ x ∈ ([1, 2] : List Int) ++ [3], x < 5) → m1.Graph.greatestY < 5) :=
  greatestY_is_ring_maximum (modelOf [some 5, some 1, some 2]) 5 [1, 2] 3 rfl
    ⟨3, by decide, by decide⟩

/-- C2: a zero sample does not advance the column index of `View`.  After
`New`, `SetSize(4, 3)` (two columns, one row), `WithMaxScale(5)` and
`AddNextValue(5)` the ring holds 0 then 5, the newest sample 5 has normalized
row count 1, and yet column 0 has one filled cell and column 1 has none. -/
theorem view_zero_sample_shifts_columns :
    ((((New 0).bind fun m => m.SetSize 4 3).bind fun m =>
        (m.WithMaxScale 5).addValues [5]).map fun m =>
        (Ring.Do m.Graph.yValues, m.viewSize, scaleY m.Graph 1 5, m.viewRunes,
          m.viewRunes.map fun r => r.map filledCells)) =
      .ok ([some 0, some 5], (2, 1), .ok 1, .ok [["⣿"], [" "]], .ok [1, 0]) := by
  rfl

/-- C3: shrinking leaves the cursor on the newest sample.  After `New`,
`SetSize(7, 7)` and the inserts 1, 2, 3, 4, 5 the ring holds 1, 2, 3, 4, 5;
`SetSize(5, 7)` (graph width 3) gives a ring of length 3 whose traversal is
5, 3, 4 and not 3, 4, 5. -/
theorem setSize_shrink_rotates :
    ((((New 0).bind fun m => m.SetSize 7 7).bind fun m =>
        m.addValues [1, 2, 3, 4, 5]).map fun m =>
        (Ring.Do m.Graph.yValues, (m.SetSize 5 7).map fun m1 => Ring.Do m1.Graph.yValues)) =
      .ok ([some 1, some 2, some 3, some 4, some 5], .ok [some 5, some 3, some 4]) := by
  rfl

/-- C4: growing leaves the oldest sample behind the newest.  After `New`,
`SetSize(5, 7)` and the inserts 3, 4, 5 the ring holds 3, 4, 5; `SetSize(7, 7)`
(graph width 5) gives a ring of length 5 whose traversal is 0, 4, 5, 3, 0 and
not 0, 0, 3, 4, 5. -/
theorem setSize_grow_misplaces_oldest :
    ((((New 0).bind fun m => m.SetSize 5 7).bind fun m =>
        m.addValues [3, 4, 5]).map fun m =>
        (Ring.Do m.Graph.yValues, (m.SetSize 7 7).map fun m1 => Ring.Do m1.Graph.yValues)) =
      .ok ([some 3, some 4, some 5], .ok [some 0, some 4, some 5, some 3, some 0]) := by
  rfl

/-- C5: a remainder key outside the table writes an empty cell.  After `New`,
`SetSize(3, 13)` (one column, eleven rows), `WithMaxScale(11)` and
`AddNextValue(10)` the ring length equals the render width 1, and the text of
`View` has eleven lines of which the second is empty: it has no cell. -/
theorem view_short_line_above_ten_rows :
    ((((New 0).bind fun m => m.SetSize 3 13).bind fun m =>
        (m.WithMaxScale 11).addValues [10]).map fun m =>
        (Ring.Len m.Graph.yValues, m.viewSize, m.View)) =
      .ok (1, (1, 11), .ok " \n\n⣿\n⣿\n⣿\n⣿\n⣿\n⣿\n⣿\n⣿\n⣿\n") := by
  rfl

/-- C7: `SetSize` keeps the old `greatestY`.  After `New`, `SetSize(5, 5)` and
the inserts 9, 1, 2, `greatestY` is 9; `SetSize(4, 5)` drops the sample 9, the
new ring holds 2 and 1, `greatestY` is still 9, and the auto-scaled `View`
leaves both columns blank (2 * 3 / 9 = 0 rows). -/
theorem setSize_keeps_stale_greatestY :
    (((((New 0).bind fun m => m.SetSize 5 5).bind fun m =>
        m.addValues [9, 1, 2]).bind fun m => m.SetSize 4 5).map fun m =>
        (Ring.Do m.Graph.yValues, m.Graph.greatestY, m.Graph.maxX, m.viewSize, m.viewRunes)) =
      .ok ([some 2, some 1], 9, 0, (2, 3), .ok [[" ", " ", " "], [" ", " ", " "]]) := by
  rfl

/-- C8, as stated, fails on overflow: with `maxX = 100`, four rows and the
sample `2 ^ 62` in a ring of its own, the product `y * h` wraps to 0 and `View`
fills no cell of the column, while `y * h / maxX` clamped to `[0, h]` is 4. -/
theorem fixed_ceiling_rows_overflow :
    ((((New 0).bind fun m => m.SetSize 3 6).bind fun m =>
        (m.WithMaxScale 100).addValues [2 ^ 62]).map fun m =>
        (Ring.Do m.Graph.yValues, m.Graph.maxX, m.viewSize, m.viewRunes,
          m.viewRunes.map fun r => r.map filledCells)) =
      .ok ([some (2 ^ 62)], 100, (1, 4), .ok [[" ", " ", " ", " "]], .ok [0]) ∧
    min (max (Int.tdiv (2 ^ 62 * 4) 100) 0) 4 = (4 : Int) := by
  constructor
  · rfl
  · decide

/-- C8, amended: in fixed-ceiling mode (`maxX > 0`), for the render height
`h >= 0` of the model and every sample `y` whose product `y * h` is in the range
of a 64-bit int, the closure of `View`, run for `y` on a blank column, fills
`y * h / maxX` (truncated division) clamped to `[0, h]` cells of that column,
and so does `View` for the one column of a ring that holds `y` alone: no cell
for `y <= 0`, and `h` cells when `y * h / maxX >= h`. -/
theorem fixed_ceiling_rows (m : Model) (y : Int) (runes : Runes) (x : Nat)
    (hmax : 0 < m.Graph.maxX)
    (hrange : -2 ^ 63 ≤ y * m.viewSize.2 ∧ y * m.viewSize.2 < 2 ^ 63)
    (hx : x < runes.length)
    (hc : runes.getD x [] = List.replicate m.viewSize.2.toNat " ") :
    0 ≤ m.viewSize.2 ∧
    (∃ runes1 x1,
      viewStep m.Graph m.viewSize.2 (runes, (x : Int)) (some y) = .ok (runes1, x1) ∧
      (filledCells (runes1.getD x []) : Int) =
        min (max (Int.tdiv (y * m.viewSize.2) m.Graph.maxX) 0) m.viewSize.2) ∧
    (m.Graph.yValues = [some y] →
      ∃ col, m.viewRunes = .ok [col] ∧
        (filledCells col : Int) =
          min (max (Int.tdiv (y * m.viewSize.2) m.Graph.maxX) 0) m.viewSize.2) ∧
    (y ≤ 0 → min (max (Int.tdiv (y * m.viewSize.2) m.Graph.maxX) 0) m.viewSize.2 = 0) ∧
    (m.viewSize.2 ≤ Int.tdiv (y * m.viewSize.2) m.Graph.maxX →
      min (max (Int.tdiv (y * m.viewSize.2) m.Graph.maxX) 0) m.viewSize.2 = m.viewSize.2) := by
  have hh := viewSize_height_nonneg m
  obtain ⟨H, hH⟩ := Int.eq_ofNat_of_zero_le hh
  rw [hH] at hrange hc ⊢
  simp only [Int.toNat_ofNat] at hc ⊢
  have hb := tdiv_bounds (y * (H : Int)) m.Graph.maxX hmax
  have hyh : y ≤ 0 → y * (H : Int) ≤ 0 := fun hy =>
    Int.mul_nonpos_of_nonpos_of_nonneg hy (by omega)
  have hs := scaleY_fixed m.Graph (H : Int) y hmax hrange.1 hrange.2
  have hrows := scaleY_rowsOf m.Graph _ _ _ hs
  have hclamp : ((rowsOf m.Graph (H : Int) y : Nat) : Int) =
      min (max (Int.tdiv (y * (H : Int)) m.Graph.maxX) 0) (H : Int) := by
    rw [hrows]
    split_ifs with hgt <;> omega
  have hzero : y = 0 → min (max (Int.tdiv (y * (H : Int)) m.Graph.maxX) 0) (H : Int) = 0 := by
    intro h0
    subst h0
    simp only [zero_mul, Int.zero_tdiv]
    omega
  refine ⟨by omega, ?_, ?_, ?_, ?_⟩
  · by_cases hy0 : y = 0
    · refine ⟨runes, (x : Int), by simp [viewStep, hy0], ?_⟩
      rw [hc, filledCells_replicate_blank, hzero hy0]
      rfl
    · refine ⟨_, _, viewStep_blank m.Graph H x runes y _ hy0 hs hx hc, ?_⟩
      rw [getD_set_self _ _ _ hx, filledCells_columnOf, ← hrows]
      exact hclamp
  · intro hring
    have hv := viewRunes_ints m [y] (by simpa using hring)
    rw [hH] at hv
    simp only [Int.toNat_ofNat] at hv
    by_cases hy0 : y = 0
    · refine ⟨List.replicate H " ", ?_, ?_⟩
      · rw [hv]; subst hy0; simp [gridOf]
      · rw [filledCells_replicate_blank, hzero hy0]; rfl
    · refine ⟨columnOf m.Graph.Inverted H (rowsOf m.Graph (H : Int) y), ?_, ?_⟩
      · rw [hv]; simp [gridOf, hy0]
      · rw [filledCells_columnOf]; exact hclamp
  · intro hy
    have := (hb.2 (hyh hy)).2
    omega
  · intro hle
    omega

/-- Witness for C8: `maxX = 100`, four rows, the sample 60 in a ring of its own:
`60 * 4 / 100 = 2` cells of its column are filled. -/
theorem fixed_ceiling_rows_witness :
    0 < (modelWith [some 60] 1 4 100).Graph.maxX ∧
    (-2 ^ 63 ≤ 60 * (modelWith [some 60] 1 4 100).viewSize.2 ∧
      60 * (modelWith [some 60] 1 4 100).viewSize.2 < 2 ^ 63) ∧
    ∃ col, (modelWith [some 60] 1 4 100).viewRunes = .ok [col] ∧
      (filledCells col : Int) = min (max (Int.tdiv (60 * 4) 100) 0) 4 :=
  ⟨by decide, by decide,
    (fixed_ceiling_rows (modelWith [some 60] 1 4 100) 60 [[" ", " ", " ", " "]] 0
      (by decide) (by decide) (by decide) rfl).2.2.1 rfl⟩

/-- C9: `SetSize` with graph width `w - 2 = 0` on a model whose ring is not
empty panics with a nil dereference: the copy loop runs its first pass
(`0 <= width`) and assigns to `Value` of the nil ring that `ring.New(0)` returned. -/
theorem setSize_zero_width_panics (m : Model) (w h : Int)
    (hw : goSub w 2 = 0) (hne : m.Graph.yValues ≠ []) :
    m.SetSize w h = .error .nilDeref := by
  unfold Model.SetSize
  simp only [hw]
  cases hr : m.Graph.yValues with
  | nil => exact absurd hr hne
  | cons y ys =>
    have hz : zeroFill 0 (Ring.New 0) = .ok [] := rfl
    have hn : (Ring.Len (y :: ys)).toNat = ys.length + 1 := by
      simp [Ring.Len]
    rw [hz]
    simp only [hn, forLoop_succ]
    rfl

/-- Witness for C9: the model of `New`-like ring of three zeroes, resized with `w = 2`. -/
theorem setSize_zero_width_panics_witness :
    (modelOf [some 0, some 0, some 0]).SetSize 2 2 = .error .nilDeref :=
  setSize_zero_width_panics (modelOf [some 0, some 0, some 0]) 2 2 (by decide) (by decide)

/-- C10: `SetSize` with graph width `w - 2 < 0` succeeds and leaves the nil ring,
for which `View` builds a grid of zero columns; `AddNextValue` of any value on
that model panics with a nil dereference instead of being a no-op. -/
theorem addNextValue_on_nil_ring_panics (m : Model) (w h v : Int) (hw : goSub w 2 < 0) :
    ∃ m1, m.SetSize w h = .ok m1 ∧
      m1.Graph.yValues = [] ∧
      m1.viewRunes = .ok [] ∧
      m1.AddNextValue v = .error .nilDeref := by
  have hz : zeroFill (goSub w 2) (Ring.New (goSub w 2)) = .ok [] := by
    have : (goSub w 2).toNat = 0 := by omega
    simp [zeroFill, Ring.New, this, forLoop]
  refine ⟨{ m with
      Style := (m.Style.Width w).Height h,
      Graph := { m.Graph with
        Style := (m.Graph.Style.Width (goSub w 2)).Height (goSub h 2),
        yValues := [] } }, ?_, rfl, rfl, rfl⟩
  unfold Model.SetSize
  simp only [hz]
  rw [forLoop_copyStep_skip _ hw _ 0 _ (le_refl 0)]

/-- Witness for C10: `SetSize(1, 5)` on a ring of three zeroes, then the insert 7. -/
theorem addNextValue_on_nil_ring_panics_witness :
    ∃ m1, (modelOf [some 0, some 0, some 0]).SetSize 1 5 = .ok m1 ∧
      m1.Graph.yValues = [] ∧
      m1.viewRunes = .ok [] ∧
      m1.AddNextValue 7 = .error .nilDeref :=
  addNextValue_on_nil_ring_panics (modelOf [some 0, some 0, some 0]) 1 5 7 (by decide)

/-- C11: `SetSize` to the current graph width `n >= 1` returns, the ring it
leaves has length `n` and the traversal of the old ring, the scale mode and the
orientation are kept, a second `SetSize` with the same arguments returns the
same model, and when the two styles already had that size the model is unchanged. -/
theorem setSize_same_size_idempotent (m : Model) (w h : Int)
    (hn : 1 ≤ m.Graph.yValues.length)
    (hw : goSub w 2 = (m.Graph.yValues.length : Int)) :
    ∃ m1, m.SetSize w h = .ok m1 ∧
      Ring.Len m1.Graph.yValues = Ring.Len m.Graph.yValues ∧
      Ring.Do m1.Graph.yValues = Ring.Do m.Graph.yValues ∧
      m1.Graph.maxX = m.Graph.maxX ∧
      m1.Graph.Inverted = m.Graph.Inverted ∧
      m1.SetSize w h = .ok m1 ∧
      (m.Style = (m.Style.Width w).Height h →
        m.Graph.Style = (m.Graph.Style.Width (goSub w 2)).Height (goSub h 2) → m1 = m) := by
  have h1 := SetSize_pos m w h (by omega)
  rw [hw, Int.toNat_ofNat, resized_same] at h1
  refine ⟨_, h1, rfl, rfl, rfl, rfl, ?_, ?_⟩
  · have h2 := SetSize_pos (setSizeResult m w h m.Graph.yValues) w h (by omega)
    rw [h2]
    have hr : (setSizeResult m w h m.Graph.yValues).Graph.yValues = m.Graph.yValues := rfl
    rw [hr, hw, Int.toNat_ofNat, resized_same]
    simp [setSizeResult, Style.Width, Style.Height]
  · intro hs hg
    cases m with
    | mk G i S =>
      cases G with
      | mk gy inv mx gs yv =>
        simp only [setSizeResult] at hs hg ⊢
        rw [← hs, ← hg]

/-- Witness for C11: the ring 1, 2, 3 resized with `w = 5` (graph width 3). -/
theorem setSize_same_size_idempotent_witness :
    ∃ m1, (modelOf [some 1, some 2, some 3]).SetSize 5 6 = .ok m1 ∧
      Ring.Len m1.Graph.yValues = 3 ∧
      Ring.Do m1.Graph.yValues = [some 1, some 2, some 3] ∧
      m1.SetSize 5 6 = .ok m1 := by
  obtain ⟨m1, h1, h2, h3, _, _, h6, _⟩ :=
    setSize_same_size_idempotent (modelOf [some 1, some 2, some 3]) 5 6
      (by decide) (by decide)
  exact ⟨m1, h1, h2, h3, h6⟩

/-- C17: whenever `SetSize` returns, the model it returns has the id, the
`maxX`, the `Inverted` flag and the `greatestY` of the model it was called on,
and differs from it in the ring and the sizes of the two styles only; and it
returns for every width and height but a graph width of zero on a non-empty ring. -/
theorem setSize_preserves_identity (m : Model) (w h : Int) :
    (∀ m1, m.SetSize w h = .ok m1 →
      m1.id = m.id ∧ m1.Graph.maxX = m.Graph.maxX ∧
      m1.Graph.Inverted = m.Graph.Inverted ∧ m1.Graph.greatestY = m.Graph.greatestY ∧
      ∃ r, m1 = setSizeResult m w h r) ∧
    ((goSub w 2 ≠ 0 ∨ m.Graph.yValues = []) → ∃ m1, m.SetSize w h = .ok m1) := by
  constructor
  · intro m1 hs
    rw [SetSize_ok m m1 w h hs]
    exact ⟨rfl, rfl, rfl, rfl, _, rfl⟩
  · intro hw
    by_cases hpos : 1 ≤ goSub w 2
    · exact ⟨_, SetSize_pos m w h hpos⟩
    · by_cases hneg : goSub w 2 < 0
      · exact ⟨_, SetSize_neg m w h hneg⟩
      · have h0 : goSub w 2 = 0 := by omega
        rcases hw with hw | hw
        · exact absurd h0 hw
        · exact ⟨_, SetSize_zero_nil m w h h0 hw⟩

/-- Witness for C17: a model with id 1, ceiling 100 and the ring 1, 2, 3, resized
to graph width 2. -/
theorem setSize_preserves_identity_witness :
    ∃ m1, (modelWith [some 1, some 2, some 3] 3 4 100).SetSize 4 6 = .ok m1 ∧
      m1.id = 1 ∧ m1.Graph.maxX = 100 ∧ m1.Graph.Inverted = false := by
  obtain ⟨m1, h1⟩ :=
    (setSize_preserves_identity (modelWith [some 1, some 2, some 3] 3 4 100) 4 6).2
      (Or.inl (by decide))
  obtain ⟨h2, h3, h4, _⟩ :=
    (setSize_preserves_identity (modelWith [some 1, some 2, some 3] 3 4 100) 4 6).1 m1 h1
  exact ⟨m1, h1, h2, h3, h4⟩

/-- C20: for every old ring of length `n` and every new graph width `k >= 1`,
`SetSize` returns, the new ring has length `k`, and its values are, up to order,
the `min n k` most recent values of the old ring together with `k - min n k` zeroes. -/
theorem setSize_keeps_recent_multiset (m : Model) (w h : Int) (k : Nat)
    (hk : 1 ≤ k) (hw : goSub w 2 = (k : Int)) :
    ∃ m1, m.SetSize w h = .ok m1 ∧
      Ring.Len m1.Graph.yValues = (k : Int) ∧
      (Ring.Do m1.Graph.yValues).Perm
        ((Ring.Do m.Graph.yValues).drop
            (m.Graph.yValues.length - min m.Graph.yValues.length k) ++
          List.replicate (k - min m.Graph.yValues.length k) (some 0)) := by
  have h1 := SetSize_pos m w h (by omega)
  rw [hw, Int.toNat_ofNat] at h1
  refine ⟨_, h1, ?_, ?_⟩
  · simp [setSizeResult, Ring.Len, resized_length]
  · exact resized_perm k m.Graph.yValues

/-- Witness for C20: the ring 1, 2, 3, 4, 5 resized to graph width 3 holds 3, 4, 5
in some order. -/
theorem setSize_keeps_recent_multiset_witness :
    ∃ m1, (modelOf [some 1, some 2, some 3, some 4, some 5]).SetSize 5 6 = .ok m1 ∧
      Ring.Len m1.Graph.yValues = ((3 : Nat) : Int) ∧
      (Ring.Do m1.Graph.yValues).Perm
        ((Ring.Do (modelOf [some 1, some 2, some 3, some 4, some 5]).Graph.yValues).drop
            ((modelOf [some 1, some 2, some 3, some 4, some 5]).Graph.yValues.length -
              min (modelOf [some 1, some 2, some 3, some 4, some 5]).Graph.yValues.length 3) ++
          List.replicate
            (3 - min (modelOf [some 1, some 2, some 3, some 4, some 5]).Graph.yValues.length 3)
            (some 0)) :=
  setSize_keeps_recent_multiset (modelOf [some 1, some 2, some 3, some 4, some 5]) 5 6 3
    (by decide) (by decide)

/-- C18: `Update` never changes the model; it returns a command exactly for an
`UpdateMessage` whose `ID` is the model's id, and the message of that command
carries the model's id; for an `UpdateMessage` with another `ID`, and for a
message of another type, the command is nil. -/
theorem update_ignores_foreign_messages (m : Model) (msg : Msg) :
    (m.Update msg).1 = m ∧
    ((m.Update msg).2 ≠ none ↔ ∃ u, msg = .updateMessage u ∧ u.ID = m.id) ∧
    (∀ c, (m.Update msg).2 = some c → c.ID = m.id) ∧
    (∀ u, m.Update (.updateMessage u) =
      if u.ID ≠ m.id then (m, none) else (m, some { ID := m.id, YValue := 0 })) ∧
    m.Update .other = (m, none) := by
  have hu : ∀ u, m.Update (.updateMessage u) =
      if u.ID ≠ m.id then (m, none) else (m, some { ID := m.id, YValue := 0 }) := by
    intro u
    simp only [Model.Update]
    split_ifs <;> rfl
  have ho : m.Update .other = (m, none) := rfl
  refine ⟨?_, ?_, ?_, hu, ho⟩
  · cases msg with
    | updateMessage u => rw [hu]; split_ifs <;> rfl
    | other => rw [ho]
  · cases msg with
    | updateMessage u =>
      rw [hu]
      by_cases h : u.ID = m.id
      · simp [h]
      · simp [h]
    | other => rw [ho]; simp
  · intro c hc
    cases msg with
    | updateMessage u =>
      rw [hu] at hc
      by_cases h : u.ID = m.id
      · simp [h] at hc
        rw [← hc]
      · simp [h] at hc
    | other => rw [ho] at hc; simp at hc

/-- C15: after `New`, `SetSize(6, 6)`, `WithMaxScale(100)` and the inserts 25, 50,
75, 100 the ring holds these four samples, the render is four columns of four
rows, the normalized rows are 1, 2, 3, 4, and the grid (columns left to right,
cells top to bottom) is: column 0 blank but for the level-1 glyph in the bottom
row, column 1 the level-2 glyph over one full glyph, column 2 the level-3 glyph
over two full glyphs, column 3 the full glyph in all four rows. -/
theorem end_to_end_scenario :
    ((((New 0).bind fun m => m.SetSize 6 6).bind fun m =>
        (m.WithMaxScale 100).addValues [25, 50, 75, 100]).map fun m =>
        (Ring.Do m.Graph.yValues, m.Graph.Inverted, m.viewSize,
          [25, 50, 75, 100].map (scaleY m.Graph 4),
          m.viewRunes,
          m.viewRunes.map fun r => r.map filledCells,
          m.View)) =
      .ok ([some 25, some 50, some 75, some 100], false, (4, 4),
           [.ok 1, .ok 2, .ok 3, .ok 4],
           .ok [[" ", " ", " ", remainderRune 1 false],
                [" ", " ", remainderRune 2 false, "⣿"],
                [" ", remainderRune 3 false, "⣿", "⣿"],
                ["⣿", "⣿", "⣿", "⣿"]],
           .ok [1, 2, 3, 4],
           .ok "   ⣿\n  ⢰⣿\n ⢠⣿⣿\n⢀⣿⣿⣿\n") ∧
    remainderRune 1 false = "⢀" ∧ remainderRune 2 false = "⢠" ∧
    remainderRune 3 false = "⢰" := by
  refine ⟨rfl, rfl, rfl, rfl⟩

/-! ## Lemmas on the scale rule and on the columns -/

theorem scaleY_zero (g : graph) (h : Int) : scaleY g h 0 = .ok (if 0 > h then h else 0) := by
  have hw : wrap64 0 = 0 := by decide
  unfold scaleY goDiv goMul
  by_cases h1 : g.maxX ≠ 0
  · rw [if_pos h1, if_neg h1]
    simp [hw]
  · rw [if_neg h1]
    by_cases h2 : g.greatestY ≠ 0
    · rw [if_pos h2, if_neg h2]
      simp [hw]
    · rw [if_neg h2]

theorem scaleY_fixed_eq (g1 g2 : graph) (h y : Int) (hmax : g1.maxX ≠ 0)
    (heq : g2.maxX = g1.maxX) : scaleY g1 h y = scaleY g2 h y := by
  unfold scaleY
  rw [if_pos hmax, if_pos (by rw [heq]; exact hmax), heq]

theorem rowsOf_le (g : graph) (H : Nat) (y0 : Int) : rowsOf g (H : Int) y0 ≤ H := by
  obtain ⟨y, hs⟩ := scaleY_ok g (H : Int) y0
  have := scaleY_le g _ _ _ hs
  rw [scaleY_rowsOf g _ _ _ hs]
  omega

theorem columnOf_length (b : Bool) (H Y : Nat) (hY : Y ≤ H) : (columnOf b H Y).length = H := by
  unfold columnOf
  split_ifs <;> simp <;> omega

theorem columnOf_zero (b : Bool) (H : Nat) : columnOf b H 0 = List.replicate H " " := by
  simp [columnOf]

theorem columnOf_full (b : Bool) (H : Nat) (hH : 1 ≤ H) :
    columnOf b H H = List.replicate H "⣿" := by
  have hr : ∀ i, remainderRune 0 i = "⣿" := by intro i; cases i <;> rfl
  obtain ⟨k, rfl⟩ : ∃ k, H = k + 1 := ⟨H - 1, by omega⟩
  unfold columnOf
  rw [if_neg (by omega), Int.tmod_self, hr true, hr false]
  cases b
  · simp [List.replicate_succ]
  · simp [List.replicate_succ']

theorem remainderRune_outside (r : Int) (b : Bool) (h : ¬(0 ≤ r ∧ r ≤ 9)) :
    remainderRune r b = "" := by
  unfold remainderRune
  rw [if_neg (by omega), if_neg (by omega), if_neg (by omega), if_neg (by omega),
    if_neg (by omega), if_neg (by omega), if_neg (by omega), if_neg (by omega),
    if_neg (by omega), if_neg (by omega)]

theorem mirrorGlyph_remainderRune (r : Int) :
    mirrorGlyph (remainderRune r false) = remainderRune r true := by
  by_cases h : 0 ≤ r ∧ r ≤ 9
  · obtain ⟨h0, h9⟩ := h
    interval_cases r <;> decide
  · rw [remainderRune_outside r false h, remainderRune_outside r true h]
    decide

theorem mirrorGlyph_blank : mirrorGlyph " " = " " := by decide

theorem mirrorGlyph_full : mirrorGlyph "⣿" = "⣿" := by decide

theorem columnOf_mirror (H Y : Nat) :
    columnOf true H Y = ((columnOf false H Y).map mirrorGlyph).reverse := by
  unfold columnOf
  by_cases hY : Y = 0
  · rw [if_pos hY, if_pos hY]
    simp [mirrorGlyph_blank]
  · rw [if_neg hY, if_neg hY]
    simp [mirrorGlyph_blank, mirrorGlyph_full, mirrorGlyph_remainderRune]

/-- C13: for every height `h >= 1`, both orientations and every sample, the
closure of `View` returns, and on a blank column it leaves the column blank
when the normalized row count of the sample is 0 (or below), and leaves the
full glyph in all `h` rows when the normalized row count is `h`. -/
theorem quantizer_edge_columns (g : graph) (H : Nat) (hH : 1 ≤ H) (runes : Runes) (x : Nat)
    (hx : x < runes.length) (hc : runes.getD x [] = List.replicate H " ")
    (y0 y : Int) (hs : scaleY g (H : Int) y0 = .ok y) :
    ∃ runes1 x1, viewStep g (H : Int) (runes, (x : Int)) (some y0) = .ok (runes1, x1) ∧
      (y ≤ 0 → runes1.getD x [] = List.replicate H " ") ∧
      (y = (H : Int) → runes1.getD x [] = List.replicate H "⣿") := by
  by_cases hy0 : y0 = 0
  · subst hy0
    rw [scaleY_zero, if_neg (by omega)] at hs
    have hy : y = 0 := (Except.ok.inj hs).symm
    refine ⟨runes, (x : Int), by simp [viewStep], fun _ => hc, ?_⟩
    intro hyH
    omega
  · refine ⟨_, _, viewStep_blank g H x runes y0 y hy0 hs hx hc, ?_, ?_⟩
    · intro hle
      have : y.toNat = 0 := by omega
      rw [getD_set_self _ _ _ hx, this, columnOf_zero]
    · intro hyH
      have : y.toNat = H := by omega
      rw [getD_set_self _ _ _ hx, this, columnOf_full _ _ hH]

/-- Witness for C13: height 4 and ceiling 100, inverted; the sample 100 has
normalized row count 4 and fills the column with the full glyph. -/
theorem quantizer_edge_columns_witness :
    ∃ runes1 x1,
      viewStep ((modelWith [some 100] 1 4 100).setInverted true).Graph ((4 : Nat) : Int)
        ([[" ", " ", " ", " "]], ((0 : Nat) : Int)) (some 100) = .ok (runes1, x1) ∧
      runes1.getD 0 [] = List.replicate 4 "⣿" := by
  obtain ⟨r1, x1, h1, _, h3⟩ :=
    quantizer_edge_columns ((modelWith [some 100] 1 4 100).setInverted true).Graph 4
      (by decide) [[" ", " ", " ", " "]] 0 (by decide) rfl 100 4 rfl
  exact ⟨r1, x1, h1, h3 rfl⟩

theorem gridOf_length (g : graph) (H : Nat) (ys : List Int) :
    (gridOf g H ys).length = ys.length := by
  have := List.length_filter_le (fun y : Int => y != 0) ys
  simp [gridOf]
  omega

theorem gridOf_column_length (g : graph) (H : Nat) (ys : List Int) :
    ∀ col ∈ gridOf g H ys, col.length = H := by
  intro col hcol
  simp only [gridOf, List.mem_append, List.mem_map, List.mem_replicate] at hcol
  rcases hcol with ⟨y0, _, rfl⟩ | ⟨_, rfl⟩
  · exact columnOf_length _ _ _ (rowsOf_le g H y0)
  · simp

theorem gridOf_mirror (g : graph) (H : Nat) (ys : List Int) :
    gridOf { g with Inverted := true } H ys =
      (gridOf { g with Inverted := false } H ys).map
        (fun col => (col.map mirrorGlyph).reverse) := by
  have hrows : ∀ (b : Bool) (y0 : Int),
      rowsOf { g with Inverted := b } (H : Int) y0 = rowsOf g (H : Int) y0 := fun _ _ => rfl
  simp only [gridOf, hrows, List.map_append, List.map_map, List.map_replicate]
  congr 1
  · apply List.map_congr_left
    intro y0 _
    exact columnOf_mirror H _
  · simp [mirrorGlyph_blank]

theorem cellAt_mirror (up : Runes) (H x i : Nat) (hx : x < up.length) (hi : i < H)
    (hcol : ∀ col ∈ up, col.length = H) :
    cellAt (up.map (fun col => (col.map mirrorGlyph).reverse)) x i =
      mirrorGlyph (cellAt up x (H - 1 - i)) := by
  have hlen : (up[x]).length = H := hcol _ (List.getElem_mem _)
  have h1 : (up.map (fun col => (col.map mirrorGlyph).reverse)).getD x [] =
      ((up[x]).map mirrorGlyph).reverse := by
    simp [List.getD_eq_getElem?_getD, List.getElem?_eq_getElem hx]
  have h2 : up.getD x [] = up[x] := by
    simp [List.getD_eq_getElem?_getD, List.getElem?_eq_getElem hx]
  have hb : H - 1 - i < (up[x]).length := by omega
  have h3 : (((up[x]).map mirrorGlyph).reverse)[i]? =
      some (mirrorGlyph ((up[x])[H - 1 - i])) := by
    rw [List.getElem?_reverse (by simp; omega)]
    simp only [List.length_map, hlen]
    rw [List.getElem?_eq_getElem (by simp; omega)]
    simp
  have h4 : (up[x])[H - 1 - i]? = some ((up[x])[H - 1 - i]) :=
    List.getElem?_eq_getElem hb
  simp only [cellAt, h1, h2, List.getD_eq_getElem?_getD, h3, h4, Option.getD_some]

/-- C12: two models with the same ring of ints, the same `maxX > 0`, the same
orientation and the same graph style, whatever their `greatestY`: `View` builds
the same grid and the same text for both, and the scale rule gives every sample
the same normalized row count. -/
theorem fixed_ceiling_ignores_greatestY (m1 m2 : Model) (ys : List Int)
    (h1 : m1.Graph.yValues = ys.map some) (h2 : m2.Graph.yValues = ys.map some)
    (hmax : 0 < m1.Graph.maxX) (heq : m2.Graph.maxX = m1.Graph.maxX)
    (hinv : m2.Graph.Inverted = m1.Graph.Inverted)
    (hst : m2.Graph.Style = m1.Graph.Style) :
    (∃ runes, m1.viewRunes = .ok runes ∧ m2.viewRunes = .ok runes) ∧
    m1.View = m2.View ∧
    m1.viewSize = m2.viewSize ∧
    (∀ y : Int, scaleY m1.Graph m1.viewSize.2 y = scaleY m2.Graph m2.viewSize.2 y) := by
  have hsize : m2.viewSize = m1.viewSize := by
    simp only [Model.viewSize, hst]
  have hscale : ∀ h y : Int, scaleY m1.Graph h y = scaleY m2.Graph h y :=
    fun h y => scaleY_fixed_eq m1.Graph m2.Graph h y (by omega) heq
  have hrows : ∀ h y : Int, rowsOf m2.Graph h y = rowsOf m1.Graph h y := by
    intro h y
    simp only [rowsOf, hscale]
  have hgrid : gridOf m2.Graph m1.viewSize.2.toNat ys = gridOf m1.Graph m1.viewSize.2.toNat ys := by
    simp only [gridOf, hrows, hinv]
  have hv1 := viewRunes_ints m1 ys h1
  have hv2 := viewRunes_ints m2 ys h2
  rw [hsize, hgrid] at hv2
  refine ⟨⟨_, hv1, hv2⟩, ?_, hsize.symm, ?_⟩
  · simp only [Model.View, hv1, hv2, hsize]
  · intro y
    rw [hsize]
    exact hscale _ y

/-- Witness for C12: the ring 25, 50 under ceiling 100 at height 4, once with
`greatestY = 0` and once with `greatestY = 90`. -/
theorem fixed_ceiling_ignores_greatestY_witness :
    (∃ runes, (modelWith [some 25, some 50] 2 4 100).viewRunes = .ok runes ∧
      ({ modelWith [some 25, some 50] 2 4 100 with
          Graph := { (modelWith [some 25, some 50] 2 4 100).Graph with
            greatestY := 90 } } : Model).viewRunes = .ok runes) :=
  (fixed_ceiling_ignores_greatestY (modelWith [some 25, some 50] 2 4 100)
    { modelWith [some 25, some 50] 2 4 100 with
        Graph := { (modelWith [some 25, some 50] 2 4 100).Graph with greatestY := 90 } }
    [25, 50] rfl rfl (by decide) rfl rfl rfl).1

/-- C14: for every ring of ints, scale mode, width and height `h`, the grids
`View` builds with `Inverted = false` and with `Inverted = true` have the same
columns of `h` cells, and the cell at row `i` of column `x` of the inverted grid
is the mirror glyph of the cell at row `h - 1 - i` of that column of the
upright grid. -/
theorem inverted_is_mirror (m : Model) (ys : List Int)
    (hm : m.Graph.yValues = ys.map some) :
    ∃ up inv, (m.setInverted false).viewRunes = .ok up ∧
      (m.setInverted true).viewRunes = .ok inv ∧
      up.length = ys.length ∧ inv.length = ys.length ∧
      (∀ col ∈ up, col.length = m.viewSize.2.toNat) ∧
      inv = up.map (fun col => (col.map mirrorGlyph).reverse) ∧
      (∀ x i : Nat, x < ys.length → i < m.viewSize.2.toNat →
        cellAt inv x i = mirrorGlyph (cellAt up x (m.viewSize.2.toNat - 1 - i))) := by
  have hu := viewRunes_ints (m.setInverted false) ys hm
  have hi := viewRunes_ints (m.setInverted true) ys hm
  have hs : ∀ b, (m.setInverted b).viewSize = m.viewSize := fun _ => rfl
  rw [hs] at hu hi
  have hmir := gridOf_mirror m.Graph m.viewSize.2.toNat ys
  have hlen := gridOf_length (m.setInverted false).Graph m.viewSize.2.toNat ys
  have hcol := gridOf_column_length (m.setInverted false).Graph m.viewSize.2.toNat ys
  refine ⟨_, _, hu, hi, hlen, gridOf_length _ _ _, hcol, hmir, ?_⟩
  intro x i hx hi2
  have hmir2 : gridOf (m.setInverted true).Graph m.viewSize.2.toNat ys =
      (gridOf (m.setInverted false).Graph m.viewSize.2.toNat ys).map
        (fun col => (col.map mirrorGlyph).reverse) := hmir
  rw [hmir2]
  exact cellAt_mirror _ _ x i (by rw [hlen]; exact hx) hi2 hcol

/-- Witness for C14: the ring 25, 50 under ceiling 100 at height 4; the bottom
cell of column 0 of the upright grid is the level-1 glyph, and the top cell of
that column of the inverted grid is its upside-down glyph. -/
theorem inverted_is_mirror_witness :
    ∃ up inv, ((modelWith [some 25, some 50] 2 4 100).setInverted false).viewRunes = .ok up ∧
      ((modelWith [some 25, some 50] 2 4 100).setInverted true).viewRunes = .ok inv ∧
      cellAt inv 0 0 = mirrorGlyph (cellAt up 0 3) := by
  obtain ⟨up, inv, h1, h2, _, _, _, _, h7⟩ :=
    inverted_is_mirror (modelWith [some 25, some 50] 2 4 100) [25, 50] rfl
  exact ⟨up, inv, h1, h2, h7 0 0 (by decide) (by decide)⟩

/-! ## Models at the end of a chain of calls -/

theorem ints_of_all_some (g : Int) (r : Ring)
    (h : ∀ p ∈ r, ∃ v : Int, p = some v ∧ v ≤ g) :
    ∃ ys : List Int, r = ys.map some ∧ ∀ y ∈ ys, y ≤ g := by
  induction r with
  | nil => exact ⟨[], rfl, by simp⟩
  | cons p ps ih =>
    obtain ⟨v, rfl, hv⟩ := h p (by simp)
    obtain ⟨ys, rfl, hys⟩ := ih (fun q hq => h q (List.mem_cons_of_mem _ hq))
    refine ⟨v :: ys, rfl, ?_⟩
    intro y hy
    rcases List.mem_cons.mp hy with rfl | hy
    · exact hv
    · exact hys y hy

theorem New_eq (lastID : Int) :
    New lastID = .ok
      { Graph := { greatestY := 0, Inverted := false, maxX := 0,
                   Style := Style.NewStyle,
                   yValues := List.replicate 100 (some 0) },
        id := nextID lastID,
        Style := Style.NewStyle } := by
  have h : zeroFill 100 (Ring.New 100) = .ok (List.replicate 100 (some 0)) := zeroFill_New 100
  simp only [New]
  rw [h]

theorem wellFormed_New (lastID : Int) (m : Model) (h : New lastID = .ok m) : WellFormed m := by
  rw [New_eq] at h
  have hm := Except.ok.inj h
  subst hm
  refine ⟨le_refl _, ⟨List.replicate 100 0, by simp, ?_⟩, rfl, rfl, le_refl _, ?_⟩
  · intro y hy
    have := List.eq_of_mem_replicate hy
    simp only at this ⊢
    omega
  · show (0 : Int) ≤ ((List.replicate 100 (some (0 : Int))).length : Int)
    simp

theorem wellFormed_AddNextValue (m m1 : Model) (v : Int) (c : Cmd) (hwf : WellFormed m)
    (h : m.AddNextValue v = .ok (m1, c)) : WellFormed m1 := by
  obtain ⟨_, ⟨ys, hys, _⟩, hfw, hfh, hw0, hw⟩ := hwf
  cases ys with
  | nil =>
    have hnil : m.Graph.yValues = [] := by simpa using hys
    have : m.AddNextValue v = .error .nilDeref := by
      unfold Model.AddNextValue
      rw [hnil]
      rfl
    rw [this] at h
    exact absurd h (by simp)
  | cons y ys =>
    rw [AddNextValue_ints m y ys v hys] at h
    have hm := (Prod.mk.inj (Except.ok.inj h)).1
    subst hm
    refine ⟨maxFrom_ge _ 0, ⟨ys ++ [v], rfl, maxFrom_upper _ 0⟩, hfw, hfh, hw0, ?_⟩
    have hl : Ring.Len m.Graph.yValues = Ring.Len ((ys ++ [v]).map some) := by
      rw [hys]; simp [Ring.Len]
    rw [hl] at hw
    exact hw

theorem wellFormed_SetSize (m m1 : Model) (w h : Int) (hwf : WellFormed m)
    (hs : m.SetSize w h = .ok m1) : WellFormed m1 := by
  obtain ⟨hg, ⟨ys, hys, hle⟩, hfw, hfh, _, _⟩ := hwf
  rw [SetSize_ok m m1 w h hs]
  by_cases hpos : 1 ≤ goSub w 2
  · rw [if_pos hpos]
    obtain ⟨k, hk⟩ := Int.eq_ofNat_of_zero_le (show 0 ≤ goSub w 2 by omega)
    have hall : ∀ p ∈ resized (goSub w 2).toNat m.Graph.yValues,
        ∃ v : Int, p = some v ∧ v ≤ m.Graph.greatestY := by
      intro p hp
      have hp2 := (resized_perm _ _).mem_iff.mp hp
      rcases List.mem_append.mp hp2 with h1 | h1
      · have h2 := List.mem_of_mem_drop h1
        rw [hys] at h2
        obtain ⟨y, hy, rfl⟩ := List.mem_map.mp h2
        exact ⟨y, rfl, hle y hy⟩
      · rw [List.eq_of_mem_replicate h1]
        exact ⟨0, rfl, hg⟩
    refine ⟨hg, ints_of_all_some _ _ hall, hfw, hfh, ?_, ?_⟩
    · simp [setSizeResult, Style.Width, Style.Height]
    · simp only [setSizeResult, Style.Width, Style.Height, Ring.Len, resized_length, hk,
        Int.toNat_ofNat]
      omega
  · rw [if_neg hpos]
    refine ⟨hg, ⟨[], rfl, by simp⟩, hfw, hfh, ?_, ?_⟩
    · simp [setSizeResult, Style.Width, Style.Height]
    · simp only [setSizeResult, Style.Width, Style.Height, Ring.Len, List.length_nil]
      omega

theorem chain_wellFormed (m : Model) (hr : ChainReachable m) : WellFormed m := by
  induction hr with
  | new lastID m h => exact wellFormed_New lastID m h
  | addNextValue m m1 v c _ h ih => exact wellFormed_AddNextValue m m1 v c ih h
  | setSize m m1 w h _ hs ih => exact wellFormed_SetSize m m1 w h ih hs
  | withAutoScale m _ ih => exact ih
  | withMaxScale m max _ ih => exact ih

theorem chain_addValues (vs : List Int) : ∀ (m m1 : Model), ChainReachable m →
    m.addValues vs = .ok m1 → ChainReachable m1 := by
  induction vs with
  | nil =>
    intro m m1 hr h
    have := Except.ok.inj h
    rw [← this]; exact hr
  | cons v vs ih =>
    intro m m1 hr h
    simp only [Model.addValues] at h
    cases hv : m.AddNextValue v with
    | error e => rw [hv] at h; exact absurd h (by simp)
    | ok r =>
      rw [hv] at h
      exact ih r.1 m1 (ChainReachable.addNextValue m r.1 v r.2 hr hv) h

/-! ## Lemmas on the text and on the wrapped product -/

theorem forLoop_total {σ : Type} (body : Int → σ → Except Panic σ) (hi : Int)
    (hbody : ∀ (i : Int) (s : σ), 0 ≤ i → i < hi → ∃ s1, body i s = .ok s1) (k : Nat) :
    ∀ (i : Int) (s : σ), 0 ≤ i → i + (k : Int) ≤ hi → ∃ s1, forLoop body k i s = .ok s1 := by
  induction k with
  | zero => intro i s _ _; exact ⟨s, rfl⟩
  | succ k ih =>
    intro i s h0 hk
    obtain ⟨s1, h1⟩ := hbody i s h0 (by push_cast at hk; omega)
    rw [forLoop_succ, h1]
    exact ih (i + 1) s1 (by omega) (by push_cast at hk ⊢; omega)

theorem getCell_ok (runes : Runes) (x y : Int) (h : Int) (hx0 : 0 ≤ x)
    (hx : x < (runes.length : Int)) (hy0 : 0 ≤ y) (hy : y < h)
    (hcol : ∀ col ∈ runes, h ≤ (col.length : Int)) :
    ∃ c, getCell runes x y = .ok c := by
  have hxn : x.toNat < runes.length := by omega
  have hmem : runes.getD x.toNat [] ∈ runes := by
    rw [List.getD_eq_getElem?_getD, List.getElem?_eq_getElem hxn]
    exact List.getElem_mem _
  have hl := hcol _ hmem
  unfold getCell
  rw [if_neg (by omega)]
  simp only
  rw [if_neg (by omega)]
  exact ⟨_, rfl⟩

theorem serialize_ok (runes : Runes) (w h : Int) (hw : w ≤ (runes.length : Int))
    (hcol : ∀ col ∈ runes, h ≤ (col.length : Int)) :
    ∃ s, serialize runes w h = .ok s := by
  unfold serialize
  apply forLoop_total _ (h.toNat : Int) _ h.toNat 0 "" (le_refl 0) (by omega)
  intro i sb hi0 hih
  have hinner : ∃ sb2, forLoop (fun j sb1 =>
        match getCell runes j i with
        | .error e => .error e
        | .ok c => .ok (sb1 ++ c)) w.toNat 0 sb = .ok sb2 := by
    apply forLoop_total _ (w.toNat : Int) _ w.toNat 0 sb (le_refl 0) (by omega)
    intro j sb1 hj0 hjw
    obtain ⟨c, hc⟩ := getCell_ok runes j i h hj0 (by omega) hi0 (by omega) hcol
    exact ⟨sb1 ++ c, by simp only [hc]⟩
  obtain ⟨sb2, h2⟩ := hinner
  exact ⟨sb2 ++ "\n", by simp only [h2]⟩

theorem wrap64_range (x : Int) : -2 ^ 63 ≤ wrap64 x ∧ wrap64 x < 2 ^ 63 := by
  unfold wrap64
  have h1 := Int.emod_nonneg (x + 2 ^ 63) (show (2 : Int) ^ 64 ≠ 0 by norm_num)
  have h2 := Int.emod_lt_of_pos (x + 2 ^ 63) (show (0 : Int) < 2 ^ 64 by norm_num)
  constructor <;> omega

theorem wrap64_le (x : Int) (h : -2 ^ 63 ≤ x) : wrap64 x ≤ x := by
  by_cases hx : x < 2 ^ 63
  · rw [wrap64_eq x h hx]
  · have := (wrap64_range x).2
    omega

theorem scaled_le_height (y g h : Int) (hy : y ≤ g) (hg : 0 < g) (hh : 0 ≤ h)
    (hlow : -2 ^ 63 ≤ y * h) :
    ∃ q, goDiv (goMul y h) g = .ok q ∧ q ≤ h := by
  have hr := wrap64_range (y * h)
  have hle := wrap64_le (y * h) hlow
  have hb := tdiv_bounds (wrap64 (y * h)) g hg
  have hmul : y * h ≤ g * h := Int.mul_le_mul_of_nonneg_right hy hh
  unfold goDiv goMul
  rw [if_neg (by omega)]
  refine ⟨_, rfl, ?_⟩
  by_cases hp : 0 ≤ wrap64 (y * h)
  · have h1 := hb.1 hp
    rw [wrap64_eq _ (by omega) (by omega), Int.tdiv_eq_ediv hp (by omega)]
    have hlt : wrap64 (y * h) < (h + 1) * g := by nlinarith
    have := Int.ediv_lt_of_lt_mul hg hlt
    omega
  · have h1 := hb.2 (by omega)
    rw [wrap64_eq _ (by omega) (by omega)]
    omega

theorem chain_of_calls (lastID w h : Int) (vs : List Int) (m : Model)
    (hc : (((New lastID).bind fun m => m.SetSize w h).bind fun m => m.addValues vs) = .ok m) :
    ChainReachable m := by
  cases h0 : New lastID with
  | error e => rw [h0] at hc; exact absurd hc (by simp [Except.bind])
  | ok m0 =>
    rw [h0] at hc
    simp only [Except.bind] at hc
    cases h1 : m0.SetSize w h with
    | error e => rw [h1] at hc; exact absurd hc (by simp)
    | ok m1 =>
      rw [h1] at hc
      exact chain_addValues vs m1 m
        (ChainReachable.setSize m0 m1 w h (ChainReachable.new lastID m0 h0) h1) hc

theorem rowsOf_zero_denominator (g : graph) (h y0 : Int) (hmax : g.maxX = 0)
    (hg : g.greatestY = 0) (hy : y0 ≤ 0) (hh : 0 ≤ h) : rowsOf g h y0 = 0 := by
  have hs : scaleY g h y0 = .ok y0 := by
    unfold scaleY
    rw [if_neg (by simp [hmax]), if_neg (by simp [hg])]
    simp only
    rw [if_neg (by omega)]
  rw [scaleY_rowsOf g _ _ _ hs]
  omega

/-! ## Lemmas on the states of models that share a ring -/

theorem run_append (ops1 : List Op) : ∀ (ops2 : List Op) (W : World),
    World.run (ops1 ++ ops2) W =
      match World.run ops1 W with
      | .error e => .error e
      | .ok W1 => World.run ops2 W1 := by
  induction ops1 with
  | nil => intro ops2 W; rfl
  | cons op ops ih =>
    intro ops2 W
    simp only [List.cons_append, World.run]
    cases World.step W op with
    | error e => rfl
    | ok W1 => exact ih ops2 W1

theorem getD_append_left (heap : List Ring) (r : Ring) (a : Nat) (ha : a < heap.length) :
    (heap ++ [r]).getD a [] = heap.getD a [] := by
  simp [List.getD_eq_getElem?_getD, List.getElem?_append_left ha]

theorem getD_append_length (heap : List Ring) (r : Ring) :
    (heap ++ [r]).getD heap.length [] = r := by
  simp [List.getD_eq_getElem?_getD]

theorem getD_set_length (heap : List Ring) (a b : Nat) (r : Ring)
    (hr : r.length = (heap.getD a []).length) :
    ((heap.set a r).getD b []).length = (heap.getD b []).length := by
  by_cases hab : a = b
  · subst hab
    by_cases ha : a < heap.length
    · simp [List.getD_eq_getElem?_getD, List.getElem?_set, ha, hr]
    · have hn : heap[a]? = none := List.getElem?_eq_none (by omega)
      simp [List.getD_eq_getElem?_getD, List.getElem?_set, ha, hn]
  · simp [List.getD_eq_getElem?_getD, List.getElem?_set, hab]

theorem Var.wellFormed_of_lengths (heap heap1 : List Ring) (v : Var)
    (hlen : heap.length ≤ heap1.length)
    (hr : (heap1.getD v.addr []).length = (heap.getD v.addr []).length)
    (hv : Var.WellFormed heap v) : Var.WellFormed heap1 v := by
  obtain ⟨h1, h2, h3, h4, h5, h6, h7, h8⟩ := hv
  refine ⟨by omega, ?_, ?_, h4, h5, h6, h7, ?_⟩
  · rw [hr]; exact h2
  · rw [hr]; exact h3
  · rw [hr]; exact h8

theorem all_some_ints (r : Ring) (h : ∀ p ∈ r, ∃ y : Int, p = some y) :
    ∃ ys : List Int, r = ys.map some ∧ ys.length = r.length := by
  induction r with
  | nil => exact ⟨[], rfl, rfl⟩
  | cons p ps ih =>
    obtain ⟨y, rfl⟩ := h p (by simp)
    obtain ⟨ys, hys, hl⟩ := ih (fun q hq => h q (List.mem_cons_of_mem _ hq))
    exact ⟨y :: ys, by rw [hys]; simp, by simp [hl]⟩

theorem ringAt_mem (W : World) (addr off : Nat) (p : Option Int)
    (hp : p ∈ W.ringAt addr off) : p ∈ W.heap.getD addr [] := by
  unfold World.ringAt at hp
  rcases List.mem_append.mp hp with h | h
  · exact List.mem_of_mem_drop h
  · exact List.mem_of_mem_take h

theorem ringAt_length (W : World) (addr off : Nat) :
    (W.ringAt addr off).length = (W.heap.getD addr []).length := by
  unfold World.ringAt
  simp
  omega

theorem heap_getD_ints (W : World) (hW : W.WellFormed) (addr : Nat) :
    ∀ p ∈ W.heap.getD addr [], ∃ y : Int, p = some y := by
  intro p hp
  by_cases ha : addr < W.heap.length
  · have hmem : W.heap.getD addr [] ∈ W.heap := by
      rw [List.getD_eq_getElem?_getD, List.getElem?_eq_getElem ha]
      exact List.getElem_mem _
    exact hW.1 _ hmem p hp
  · have : W.heap.getD addr [] = [] := by
      simp [List.getD_eq_getElem?_getD, List.getElem?_eq_none (by omega : W.heap.length ≤ addr)]
    rw [this] at hp
    exact absurd hp (by simp)

theorem read_ints (W : World) (hW : W.WellFormed) (v : Var) :
    ∃ ys : List Int, (W.read v).Graph.yValues = ys.map some ∧
      ys.length = (W.heap.getD v.addr []).length := by
  obtain ⟨ys, h1, h2⟩ := all_some_ints (W.ringAt v.addr v.off)
    (fun p hp => heap_getD_ints W hW v.addr p (ringAt_mem W _ _ p hp))
  exact ⟨ys, h1, by rw [h2, ringAt_length]⟩

theorem Var.wellFormed_append (heap : List Ring) (r : Ring) (v : Var)
    (hv : Var.WellFormed heap v) : Var.WellFormed (heap ++ [r]) v :=
  Var.wellFormed_of_lengths heap _ v (by simp)
    (by rw [getD_append_left _ _ _ hv.1]) hv

theorem Var.wellFormed_new (heap : List Ring) (m : Model) (hg : 0 ≤ m.Graph.greatestY)
    (hfw : m.Graph.Style.frameW = 0) (hfh : m.Graph.Style.frameH = 0)
    (hw0 : 0 ≤ m.Graph.Style.width)
    (hw : m.Graph.Style.width ≤ (m.Graph.yValues.length : Int)) :
    Var.WellFormed (heap ++ [m.Graph.yValues]) (Var.ofModel m heap.length 0) := by
  have hget : (heap ++ [m.Graph.yValues]).getD (Var.ofModel m heap.length 0).addr [] =
      m.Graph.yValues := getD_append_length heap _
  refine ⟨by simp [Var.ofModel], ?_, ?_, hg, hfw, hfh, hw0, ?_⟩
  · intro h
    rw [hget] at h ⊢
    show 0 < m.Graph.yValues.length
    omega
  · intro _; rfl
  · rw [hget]; exact hw

theorem heap_append_ints (heap : List Ring) (r : Ring)
    (hh : ∀ r1 ∈ heap, ∀ p ∈ r1, ∃ y : Int, p = some y)
    (hr : ∀ p ∈ r, ∃ y : Int, p = some y) :
    ∀ r1 ∈ heap ++ [r], ∀ p ∈ r1, ∃ y : Int, p = some y := by
  intro r1 h1 p hp
  rcases List.mem_append.mp h1 with h | h
  · exact hh r1 h p hp
  · have : r1 = r := by simpa using h
    subst this
    exact hr p hp

theorem world_append (W : World) (hW : W.WellFormed) (m : Model)
    (hints : ∀ p ∈ m.Graph.yValues, ∃ y : Int, p = some y)
    (hg : 0 ≤ m.Graph.greatestY)
    (hfw : m.Graph.Style.frameW = 0) (hfh : m.Graph.Style.frameH = 0)
    (hw0 : 0 ≤ m.Graph.Style.width)
    (hw : m.Graph.Style.width ≤ (m.Graph.yValues.length : Int)) :
    World.WellFormed { heap := W.heap ++ [m.Graph.yValues],
                       vars := W.vars ++ [Var.ofModel m W.heap.length 0] } := by
  refine ⟨heap_append_ints _ _ hW.1 hints, ?_⟩
  intro v hv
  rcases List.mem_append.mp hv with h | h
  · exact Var.wellFormed_append _ _ v (hW.2 v h)
  · have : v = Var.ofModel m W.heap.length 0 := by simpa using h
    subst this
    exact Var.wellFormed_new W.heap m hg hfw hfh hw0 hw

theorem world_copy (W : World) (hW : W.WellFormed) (v : Var) (hv : v ∈ W.vars) (mx : Int) :
    World.WellFormed { W with vars := W.vars ++ [{ v with maxX := mx }] } := by
  refine ⟨hW.1, ?_⟩
  intro u hu
  rcases List.mem_append.mp hu with h | h
  · exact hW.2 u h
  · have : u = { v with maxX := mx } := by simpa using h
    subst this
    exact hW.2 v hv

theorem step_wellFormed (W W1 : World) (op : Op) (hW : W.WellFormed)
    (hs : W.step op = .ok W1) : W1.WellFormed := by
  cases op with
  | new lastID =>
    simp only [World.step, New_eq] at hs
    rw [← Except.ok.inj hs]
    exact world_append W hW
      { Graph := { greatestY := 0, Inverted := false, maxX := 0,
                   Style := Style.NewStyle,
                   yValues := List.replicate 100 (some 0) },
        id := nextID lastID,
        Style := Style.NewStyle }
      (fun p hp => ⟨0, List.eq_of_mem_replicate hp⟩) (le_refl _) rfl rfl (le_refl _)
      (by show (0 : Int) ≤ ((List.replicate 100 (some (0 : Int))).length : Int); simp)
  | setSize i w h =>
    simp only [World.step] at hs
    cases hv : W.vars[i]? with
    | none =>
      rw [hv] at hs
      rw [← Except.ok.inj hs]; exact hW
    | some v =>
      rw [hv] at hs
      simp only at hs
      have hV := hW.2 v (List.getElem?_mem hv)
      cases hm : (W.read v).SetSize w h with
      | error e => rw [hm] at hs; exact absurd hs (by simp)
      | ok m1 =>
        rw [hm] at hs
        simp only at hs
        rw [← Except.ok.inj hs]
        have hm1 := SetSize_ok _ _ _ _ hm
        obtain ⟨_, _, _, hg, hfw, hfh, _, _⟩ := hV
        apply world_append W hW
        · intro p hp
          rw [hm1] at hp
          by_cases hpos : 1 ≤ goSub w 2
          · simp only [setSizeResult, if_pos hpos] at hp
            have hp2 := (resized_perm _ _).mem_iff.mp hp
            rcases List.mem_append.mp hp2 with h1 | h1
            · exact heap_getD_ints W hW v.addr p
                (ringAt_mem W _ _ p (List.mem_of_mem_drop h1))
            · exact ⟨0, List.eq_of_mem_replicate h1⟩
          · simp only [setSizeResult, if_neg hpos] at hp
            exact absurd hp (by simp)
        · rw [hm1]; exact hg
        · rw [hm1]; exact hfw
        · rw [hm1]; exact hfh
        · rw [hm1]; simp [setSizeResult, Style.Width, Style.Height]
        · rw [hm1]
          by_cases hpos : 1 ≤ goSub w 2
          · have hmax : max 0 (goSub w 2) = goSub w 2 := max_eq_right (by omega)
            simp only [setSizeResult, Style.Width, Style.Height, if_pos hpos, resized_length,
              hmax]
            omega
          · have hmax : max 0 (goSub w 2) = 0 := max_eq_left (by omega)
            simp only [setSizeResult, Style.Width, Style.Height, if_neg hpos, List.length_nil,
              hmax]
            omega
  | copy i =>
    simp only [World.step] at hs
    cases hv : W.vars[i]? with
    | none =>
      rw [hv] at hs
      rw [← Except.ok.inj hs]; exact hW
    | some v =>
      rw [hv] at hs
      rw [← Except.ok.inj hs]
      exact world_copy W hW v (List.getElem?_mem hv) v.maxX
  | withAutoScale i =>
    simp only [World.step] at hs
    cases hv : W.vars[i]? with
    | none =>
      rw [hv] at hs
      rw [← Except.ok.inj hs]; exact hW
    | some v =>
      rw [hv] at hs
      rw [← Except.ok.inj hs]
      exact world_copy W hW v (List.getElem?_mem hv) 0
  | withMaxScale i mx =>
    simp only [World.step] at hs
    cases hv : W.vars[i]? with
    | none =>
      rw [hv] at hs
      rw [← Except.ok.inj hs]; exact hW
    | some v =>
      rw [hv] at hs
      rw [← Except.ok.inj hs]
      exact world_copy W hW v (List.getElem?_mem hv) mx
  | addNextValue i x =>
    simp only [World.step] at hs
    cases hv : W.vars[i]? with
    | none =>
      rw [hv] at hs
      rw [← Except.ok.inj hs]; exact hW
    | some v =>
      rw [hv] at hs
      simp only at hs
      have hV := hW.2 v (List.getElem?_mem hv)
      obtain ⟨ys, hys, hlen⟩ := read_ints W hW v
      cases ys with
      | nil =>
        have hnil : (W.read v).Graph.yValues = [] := by simpa using hys
        have : (W.read v).AddNextValue x = .error .nilDeref := by
          unfold Model.AddNextValue
          rw [hnil]
          rfl
        rw [this] at hs
        exact absurd hs (by simp)
      | cons y ys =>
        rw [AddNextValue_ints _ y ys x hys] at hs
        simp only at hs
        rw [← Except.ok.inj hs]
        have hne : (W.heap.getD v.addr []).length ≠ 0 := by
          rw [← hlen]; simp
        have hsetlen : ((W.heap.getD v.addr []).set v.off (some x)).length =
            (W.heap.getD v.addr []).length := by simp
        obtain ⟨h1, h2, h3, h4, h5, h6, h7, h8⟩ := hV
        refine ⟨?_, ?_⟩
        · intro r hr p hp
          rcases List.mem_or_eq_of_mem_set hr with h | h
          · exact hW.1 r h p hp
          · subst h
            rcases List.mem_or_eq_of_mem_set hp with h | h
            · exact heap_getD_ints W hW v.addr p h
            · exact ⟨x, h⟩
        · intro u hu
          rcases List.mem_or_eq_of_mem_set hu with h | h
          · exact Var.wellFormed_of_lengths W.heap _ u (by simp)
              (getD_set_length _ _ _ _ hsetlen) (hW.2 u h)
          · subst h
            have hl := getD_set_length W.heap v.addr v.addr _ hsetlen
            refine ⟨by simpa using h1, ?_, ?_, maxFrom_ge _ 0, h5, h6, h7, ?_⟩
            · intro _
              exact Nat.lt_of_lt_of_eq (Nat.mod_lt _ (by omega)) hl.symm
            · intro h0
              have : ((W.heap.set v.addr ((W.heap.getD v.addr []).set v.off (some x))).getD
                  v.addr []).length = 0 := h0
              omega
            · exact le_of_le_of_eq h8 (congrArg Nat.cast hl.symm)

theorem run_wellFormed (ops : List Op) : ∀ (W W1 : World), W.WellFormed →
    World.run ops W = .ok W1 → W1.WellFormed := by
  induction ops with
  | nil =>
    intro W W1 hW h
    rw [← Except.ok.inj h]; exact hW
  | cons op ops ih =>
    intro W W1 hW h
    simp only [World.run] at h
    cases hs : W.step op with
    | error e => rw [hs] at h; exact absurd h (by simp)
    | ok W2 =>
      rw [hs] at h
      exact ih W2 W1 (step_wellFormed W W2 op hW hs) h

/-- Every reachable state is well formed. -/
theorem reachable_wellFormed (W : World) (hr : Reachable W) : W.WellFormed := by
  obtain ⟨ops, h⟩ := hr
  refine run_wellFormed ops World.empty W ⟨?_, ?_⟩ h
  · intro r hr; exact absurd hr (by simp [World.empty])
  · intro v hv; exact absurd hv (by simp [World.empty])

theorem reachable_step (W W1 : World) (op : Op) (hr : Reachable W)
    (hs : W.step op = .ok W1) : Reachable W1 := by
  obtain ⟨ops, h⟩ := hr
  refine ⟨ops ++ [op], ?_⟩
  rw [run_append, h]
  simp only [World.run, hs]

theorem read_new (heap : List Ring) (vars : List Var) (m : Model) :
    World.read { heap := heap ++ [m.Graph.yValues], vars := vars }
      (Var.ofModel m heap.length 0) = m := by
  have hget : (heap ++ [m.Graph.yValues]).getD heap.length [] = m.Graph.yValues :=
    getD_append_length heap _
  cases m with
  | mk G i S =>
    cases G with
    | mk gy inv mx gs yv =>
      simp only [World.read, Var.ofModel, World.ringAt] at hget ⊢
      rw [hget]
      simp

theorem drop_take_set_succ {α : Type} (l : List α) (k : Nat) (hk : k < l.length) (a b : α)
    (t : List α) (h : l.drop k ++ l.take k = b :: t) :
    (l.set k a).drop ((k + 1) % l.length) ++ (l.set k a).take ((k + 1) % l.length) =
      t ++ [a] := by
  have hd : l.drop k = l[k] :: l.drop (k + 1) := List.drop_eq_getElem_cons hk
  rw [hd] at h
  have ht : t = l.drop (k + 1) ++ l.take k := by
    have := List.tail_eq_of_cons_eq h
    simpa using this.symm
  rw [ht]
  by_cases hlt : k + 1 < l.length
  · rw [Nat.mod_eq_of_lt hlt, List.drop_set, if_pos (by omega), take_succ_set_self l k a hk]
    simp
  · have hlen : k + 1 = l.length := by omega
    rw [← hlen, Nat.mod_self]
    have hnil : l.drop (k + 1) = [] := List.drop_eq_nil_of_le (by omega)
    rw [hnil, List.set_eq_take_cons_drop a hk, hnil]
    simp

/-- The state step of `AddNextValue` agrees with the method: the receiver reads,
after the step, as the model the method leaves behind. -/
theorem step_addNextValue_read (W : World) (hW : W.WellFormed) (i : Nat) (x : Int)
    (v : Var) (hi : W.vars[i]? = some v) (m1 : Model) (c : Cmd)
    (h : (W.read v).AddNextValue x = .ok (m1, c)) :
    ∃ W1 v1, W.step (.addNextValue i x) = .ok W1 ∧ W1.vars[i]? = some v1 ∧
      W1.read v1 = m1 := by
  have hv : v ∈ W.vars := List.getElem?_mem hi
  obtain ⟨ys, hys, hlen⟩ := read_ints W hW v
  cases ys with
  | nil =>
    have hnil : (W.read v).Graph.yValues = [] := by simpa using hys
    have : (W.read v).AddNextValue x = .error .nilDeref := by
      unfold Model.AddNextValue
      rw [hnil]
      rfl
    rw [this] at h
    exact absurd h (by simp)
  | cons y ys =>
    have hne : (W.heap.getD v.addr []).length ≠ 0 := by rw [← hlen]; simp
    have hoff := (hW.2 v hv).2.1 hne
    have haddr := (hW.2 v hv).1
    have hadd := AddNextValue_ints _ y ys x hys
    rw [hadd] at h
    have hm1 := (Prod.mk.inj (Except.ok.inj h)).1
    have hstep : W.step (.addNextValue i x) = .ok
        { heap := W.heap.set v.addr ((W.heap.getD v.addr []).set v.off (some x)),
          vars := W.vars.set i
            (Var.ofModel m1 v.addr ((v.off + 1) % (W.heap.getD v.addr []).length)) } := by
      simp only [World.step, hi, hadd, hm1]
    refine ⟨_, Var.ofModel m1 v.addr ((v.off + 1) % (W.heap.getD v.addr []).length),
      hstep, ?_, ?_⟩
    · have hil : i < W.vars.length := by
        by_contra hcon
        rw [List.getElem?_eq_none (by omega)] at hi
        exact absurd hi (by simp)
      simp [List.getElem?_set, hil]
    · have hring : (W.heap.getD v.addr []).drop v.off ++ (W.heap.getD v.addr []).take v.off =
          some y :: ys.map some := by
        have := hys
        simpa [World.read, World.ringAt] using this
      have hnew := drop_take_set_succ (W.heap.getD v.addr []) v.off hoff (some x) (some y)
        (ys.map some) hring
      have hget : (W.heap.set v.addr ((W.heap.getD v.addr []).set v.off (some x))).getD
          v.addr [] = (W.heap.getD v.addr []).set v.off (some x) := by
        simp [List.getD_eq_getElem?_getD, List.getElem?_set, haddr]
      rw [← hm1]
      simp only [World.read, Var.ofModel, World.ringAt, hget, List.length_set]
      rw [hnew]
      simp

/-- Every model at the end of a chain of calls is a model value of a reachable
state. -/
theorem chain_in_world (m : Model) (hc : ChainReachable m) :
    ∃ W v, Reachable W ∧ v ∈ W.vars ∧ W.read v = m := by
  induction hc with
  | new lastID m h =>
    refine ⟨{ heap := [] ++ [m.Graph.yValues], vars := [] ++ [Var.ofModel m 0 0] },
      Var.ofModel m 0 0, ⟨[.new lastID], ?_⟩, by simp, read_new [] _ m⟩
    simp only [World.run, World.step, h]
    rfl
  | addNextValue m m1 x c _ h ih =>
    obtain ⟨W, v, hr, hv, hread⟩ := ih
    obtain ⟨i, hi⟩ := List.getElem?_of_mem hv
    rw [← hread] at h
    obtain ⟨W1, v1, hstep, hv1, hread1⟩ :=
      step_addNextValue_read W (reachable_wellFormed W hr) i x v hi m1 c h
    exact ⟨W1, v1, reachable_step W W1 _ hr hstep, List.getElem?_mem hv1, hread1⟩
  | setSize m m1 w h _ hs ih =>
    obtain ⟨W, v, hr, hv, hread⟩ := ih
    obtain ⟨i, hi⟩ := List.getElem?_of_mem hv
    rw [← hread] at hs
    have hstep : W.step (.setSize i w h) = .ok
        { heap := W.heap ++ [m1.Graph.yValues],
          vars := W.vars ++ [Var.ofModel m1 W.heap.length 0] } := by
      simp only [World.step, hi, hs]
    exact ⟨_, Var.ofModel m1 W.heap.length 0, reachable_step W _ _ hr hstep, by simp,
      read_new W.heap _ m1⟩
  | withAutoScale m _ ih =>
    obtain ⟨W, v, hr, hv, hread⟩ := ih
    obtain ⟨i, hi⟩ := List.getElem?_of_mem hv
    have hstep : W.step (.withAutoScale i) = .ok
        { W with vars := W.vars ++ [Var.ofModel (W.read v).WithAutoScale v.addr v.off] } := by
      simp only [World.step, hi]
    refine ⟨_, Var.ofModel (W.read v).WithAutoScale v.addr v.off,
      reachable_step W _ _ hr hstep, by simp, ?_⟩
    rw [← hread]
    rfl
  | withMaxScale m mx _ ih =>
    obtain ⟨W, v, hr, hv, hread⟩ := ih
    obtain ⟨i, hi⟩ := List.getElem?_of_mem hv
    have hstep : W.step (.withMaxScale i mx) = .ok
        { W with vars := W.vars ++ [Var.ofModel ((W.read v).WithMaxScale mx) v.addr v.off] } := by
      simp only [World.step, hi]
    refine ⟨_, Var.ofModel ((W.read v).WithMaxScale mx) v.addr v.off,
      reachable_step W _ _ hr hstep, by simp, ?_⟩
    rw [← hread]
    rfl

/-- On a ring of ints that has at least as many elements as the graph style is
wide, `View` returns, with the grid of `gridOf`. -/
theorem view_returns (m : Model) (ys : List Int) (hys : m.Graph.yValues = ys.map some)
    (hfw : m.Graph.Style.frameW = 0) (hw : m.Graph.Style.width ≤ (ys.length : Int)) :
    m.viewRunes = .ok (gridOf m.Graph m.viewSize.2.toNat ys) ∧ ∃ s, m.View = .ok s := by
  have hh := viewSize_height_nonneg m
  have hv := viewRunes_ints m ys hys
  refine ⟨hv, ?_⟩
  unfold Model.View
  rw [hv]
  simp only
  apply serialize_ok
  · have h1 : m.viewSize.1 = max 0 m.Graph.Style.width := by
      simp only [Model.viewSize, Style.GetWidth, Style.GetFrameSize, hfw]
      split_ifs <;> omega
    rw [h1, gridOf_length]
    omega
  · intro col hcol
    rw [gridOf_column_length _ _ _ col hcol]
    omega

theorem gridOf_blank (g : graph) (H : Nat) (ys : List Int) (hmax : g.maxX = 0)
    (hg : g.greatestY = 0) (hle : ∀ y ∈ ys, y ≤ 0) :
    gridOf g H ys = List.replicate ys.length (List.replicate H " ") := by
  have hf := List.length_filter_le (fun y : Int => y != 0) ys
  have hcols : (ys.filter (fun y => y != 0)).map (fun y0 =>
        columnOf g.Inverted H (rowsOf g (H : Int) y0)) =
      (ys.filter (fun y => y != 0)).map (fun _ => List.replicate H " ") := by
    apply List.map_congr_left
    intro y0 hy0
    have hy := hle y0 (List.mem_of_mem_filter hy0)
    rw [rowsOf_zero_denominator g _ y0 hmax hg (by omega) (by omega), columnOf_zero]
  simp only [gridOf, hcols, List.map_const', List.append_replicate_replicate]
  congr 1
  omega

theorem columnOf_ne_blank (b : Bool) (H Y : Nat) (hY : Y ≠ 0) :
    columnOf b H Y ≠ List.replicate H " " := by
  intro h
  have hmem : remainderRune (Int.tmod (Y : Int) (H : Int)) b ∈ columnOf b H Y := by
    unfold columnOf
    rw [if_neg hY]
    cases b <;> simp
  rw [h] at hmem
  have hne := remainderRune_ne_blank (Int.tmod (Y : Int) (H : Int)) b
  rw [List.eq_of_mem_replicate hmem] at hne
  exact absurd hne (by decide)

theorem gridOf_not_blank (g : graph) (H : Nat) (ys : List Int) (hmax : g.maxX = 0)
    (hg : g.greatestY = 0) (hH : 1 ≤ H) (y : Int) (hy : y ∈ ys) (hpos : 0 < y) :
    gridOf g H ys ≠ List.replicate ys.length (List.replicate H " ") := by
  intro h
  have hs : scaleY g (H : Int) y = .ok (if y > (H : Int) then (H : Int) else y) := by
    unfold scaleY
    rw [if_neg (by simp [hmax]), if_neg (by simp [hg])]
  have hrows : rowsOf g (H : Int) y ≠ 0 := by
    rw [scaleY_rowsOf g _ _ _ hs]
    split_ifs <;> omega
  have hmem : columnOf g.Inverted H (rowsOf g (H : Int) y) ∈ gridOf g H ys := by
    unfold gridOf
    apply List.mem_append_left
    exact List.mem_map.mpr ⟨y, List.mem_filter.mpr ⟨hy, by simp; omega⟩, rfl⟩
  rw [h] at hmem
  exact columnOf_ne_blank _ _ _ hrows (List.eq_of_mem_replicate hmem)

/-! ## C16: a zero denominator -/

/-- C16, as stated, fails in a model whose ring was written through a copy:
after `a := New().SetSize(4, 3)`, `b := a.WithAutoScale()` and
`b.AddNextValue(5)` the model `a` (index 1) is in auto-scale mode with
`greatestY = 0`, its ring holds 5 and 0, its height is 1, and `View` fills the
column of the sample 5: the grid is not blank. -/
theorem zero_denominator_shared_ring_draws :
    ∃ W a, World.run [.new 0, .setSize 0 4 3, .withAutoScale 1, .addNextValue 2 5]
        World.empty = .ok W ∧
      Reachable W ∧ W.vars[1]? = some a ∧
      (W.read a).Graph.maxX = 0 ∧ (W.read a).Graph.greatestY = 0 ∧
      (W.read a).Graph.yValues = [some 5, some 0] ∧
      (W.read a).viewSize = (2, 1) ∧
      (W.read a).viewRunes = .ok [["⣿"], [" "]] ∧
      ((W.read a).viewRunes.map fun r => r.map filledCells) = .ok [1, 0] ∧
      (W.read a).View = .ok "⣿ \n" :=
  ⟨_, _, rfl, ⟨[.new 0, .setSize 0 4 3, .withAutoScale 1, .addNextValue 2 5], rfl⟩,
    rfl, rfl, rfl, rfl, rfl, rfl, rfl, rfl⟩

/-- C16, amended: in every reachable state, the models that share a ring
included, for every model in auto-scale mode (`maxX = 0`) whose `greatestY` is
0, whatever the height: `View` returns (no panic, so no division or modulo by
zero); every column of the grid it builds is blank exactly when the height is 0
or no sample of the ring is positive; and this is so whenever the model is the
end of a chain of calls each made on the result of the call before it. -/
theorem zero_denominator_renders_blank (W : World) (v : Var) (hr : Reachable W)
    (hv : v ∈ W.vars) (hmax : (W.read v).Graph.maxX = 0)
    (hg : (W.read v).Graph.greatestY = 0) :
    (∃ s, (W.read v).View = .ok s) ∧
    (∃ ys : List Int, (W.read v).Graph.yValues = ys.map some ∧
      ((W.read v).viewRunes = .ok (List.replicate ys.length
          (List.replicate (W.read v).viewSize.2.toNat " ")) ↔
        ((W.read v).viewSize.2 = 0 ∨ ∀ y ∈ ys, y ≤ 0))) ∧
    (ChainReachable (W.read v) →
      (W.read v).viewRunes = .ok (List.replicate (Ring.Len (W.read v).Graph.yValues).toNat
        (List.replicate (W.read v).viewSize.2.toNat " "))) := by
  have hW := reachable_wellFormed W hr
  obtain ⟨_, _, _, _, hfw, _, _, hw⟩ := hW.2 v hv
  obtain ⟨ys, hys, hlen⟩ := read_ints W hW v
  have hh := viewSize_height_nonneg (W.read v)
  obtain ⟨hgrid, hview⟩ := view_returns (W.read v) ys hys hfw (by rw [hlen]; exact hw)
  refine ⟨hview, ⟨ys, hys, ?_⟩, ?_⟩
  · rw [hgrid]
    constructor
    · intro h
      have hgr := Except.ok.inj h
      by_cases h0 : (W.read v).viewSize.2 = 0
      · exact Or.inl h0
      · refine Or.inr ?_
        by_contra hcon
        push_neg at hcon
        obtain ⟨y, hy, hpos⟩ := hcon
        exact gridOf_not_blank _ _ ys hmax hg (by omega) y hy hpos hgr
    · intro h
      rcases h with h0 | hle
      · congr 1
        apply List.eq_replicate_iff.mpr
        refine ⟨gridOf_length _ _ _, ?_⟩
        intro col hcol
        have hl := gridOf_column_length _ _ _ col hcol
        rw [h0] at hl ⊢
        exact List.length_eq_zero.mp hl
      · rw [gridOf_blank _ _ ys hmax hg hle]
  · intro hc
    obtain ⟨_, ⟨zs, hzs, hle⟩, _⟩ := chain_wellFormed _ hc
    have hzy : zs = ys := by
      have h := hzs.symm.trans hys
      exact List.map_injective_iff.mpr (Option.some_injective Int) h
    subst hzy
    have hl : (Ring.Len (W.read v).Graph.yValues).toNat = zs.length := by
      rw [hys]; simp [Ring.Len]
    rw [hgrid, hl, gridOf_blank _ _ zs hmax hg (fun y hy => by have := hle y hy; omega)]

theorem run_blank_state :
    ∃ W v, World.run [.new 0, .setSize 0 4 6, .addNextValue 1 (-3), .addNextValue 1 0]
        World.empty = .ok W ∧ W.vars[1]? = some v ∧
      (W.read v).Graph.maxX = 0 ∧ (W.read v).Graph.greatestY = 0 ∧
      (W.read v).Graph.yValues = [some (-3), some 0] ∧
      (W.read v).viewSize.2 = 4 := ⟨_, _, rfl, rfl, rfl, rfl, rfl, rfl⟩

/-- Witness for C16: the ring -3, 0 at height 4, after `New`, `SetSize(4, 6)`
and the inserts -3 and 0 on the resized model; `greatestY` is 0. -/
theorem zero_denominator_renders_blank_witness :
    ∃ W v, World.run [.new 0, .setSize 0 4 6, .addNextValue 1 (-3), .addNextValue 1 0]
        World.empty = .ok W ∧ W.vars[1]? = some v ∧
      (W.read v).Graph.maxX = 0 ∧ (W.read v).Graph.greatestY = 0 ∧
      (W.read v).Graph.yValues = [some (-3), some 0] ∧
      (W.read v).viewRunes = .ok [[" ", " ", " ", " "], [" ", " ", " ", " "]] ∧
      ∃ s, (W.read v).View = .ok s := by
  obtain ⟨W, v, hrun, hv, hmx, hgy, hring, hvs⟩ := run_blank_state
  obtain ⟨hview, ⟨ys, hys, hiff⟩, _⟩ :=
    zero_denominator_renders_blank W v ⟨_, hrun⟩ (List.getElem?_mem hv) hmx hgy
  have hy : ys = [-3, 0] := by
    have h : ys.map some = List.map some [-3, 0] := by rw [← hys, hring]; rfl
    exact List.map_injective_iff.mpr (Option.some_injective Int) h
  subst hy
  have hb := hiff.mpr (Or.inr (by decide))
  rw [hvs] at hb
  exact ⟨W, v, hrun, hv, hmx, hgy, hring, hb, hview⟩

/-! ## C19: the values of the ring and `greatestY` -/

/-- C19, as stated, fails in two ways.  Through a copy: after
`a := New().SetSize(5, 4)`, `a.AddNextValue(1)`, `b := a` and
`b.AddNextValue(50)` the model `a` (index 1) is in auto-scale mode with
`greatestY = 1 > 0` and its ring holds 50, above `greatestY`; at its height 2
the row count `50 * 2 / 1 = 100` is above the height before the clamp.  On
overflow: after `New`, `SetSize(4, 9)` (seven rows) and the inserts `-2 ^ 62`
and 1, each call made on the result of the call before it, `greatestY = 1 > 0`
and no value exceeds it, and yet for the sample `-2 ^ 62` the product `y * h`
wraps to `2 ^ 62`, so `y * h / greatestY` is `2 ^ 62`, above the height 7, and
the clamp gives that column seven filled rows. -/
theorem auto_scale_rows_overflow :
    (∃ W a, World.run [.new 0, .setSize 0 5 4, .addNextValue 1 1, .copy 1,
          .addNextValue 2 50] World.empty = .ok W ∧
        Reachable W ∧ W.vars[1]? = some a ∧
        (W.read a).Graph.maxX = 0 ∧ (W.read a).Graph.greatestY = 1 ∧
        (W.read a).Graph.yValues = [some 50, some 0, some 1] ∧
        ¬ ((50 : Int) ≤ (W.read a).Graph.greatestY) ∧
        (W.read a).viewSize.2 = 2 ∧
        goDiv (goMul 50 (W.read a).viewSize.2) (W.read a).Graph.greatestY = .ok 100 ∧
        ¬ ((100 : Int) ≤ (W.read a).viewSize.2)) ∧
    ∃ m, (((New 0).bind fun m => m.SetSize 4 9).bind fun m =>
        m.addValues [-(2 ^ 62), 1]) = .ok m ∧
      ChainReachable m ∧ (∃ W v, Reachable W ∧ v ∈ W.vars ∧ W.read v = m) ∧
      m.Graph.maxX = 0 ∧ m.Graph.greatestY = 1 ∧
      Ring.Do m.Graph.yValues = [some (-(2 ^ 62)), some 1] ∧
      m.viewSize.2 = 7 ∧
      goDiv (goMul (-(2 ^ 62)) m.viewSize.2) m.Graph.greatestY = .ok (2 ^ 62) ∧
      ¬ ((2 : Int) ^ 62 ≤ m.viewSize.2) ∧
      (m.viewRunes.map fun r => r.map filledCells) = .ok [7, 7] := by
  refine ⟨⟨_, _, rfl, ⟨[.new 0, .setSize 0 5 4, .addNextValue 1 1, .copy 1,
      .addNextValue 2 50], rfl⟩, rfl, rfl, rfl, rfl, by decide, rfl, rfl, by decide⟩,
    _, rfl, chain_of_calls 0 4 9 [-(2 ^ 62), 1] _ rfl,
    chain_in_world _ (chain_of_calls 0 4 9 [-(2 ^ 62), 1] _ rfl),
    rfl, rfl, rfl, rfl, rfl, ?_, rfl⟩
  decide

/-- C19, amended: in every reachable state, the models that share a ring
included, every model has `greatestY >= 0` and a ring of ints; no value of the
ring exceeds `greatestY` when the model is the end of a chain of calls each made
on the result of the call before it, and in the model on which `AddNextValue`
has just returned; and in auto-scale mode with `greatestY > 0`, for every sample
`y` of the ring that does not exceed `greatestY` and whose product `y * h` is
not below the range of a 64-bit int, the division `y * h / greatestY` of `View`
returns a row count that is at most the height `h`, which the clamp leaves as it
is. -/
theorem reachable_values_below_greatestY (W : World) (v : Var) (hr : Reachable W)
    (hv : v ∈ W.vars) :
    0 ≤ (W.read v).Graph.greatestY ∧
    (∃ ys : List Int, (W.read v).Graph.yValues = ys.map some ∧
      (ChainReachable (W.read v) → ∀ y ∈ ys, y ≤ (W.read v).Graph.greatestY) ∧
      ((W.read v).Graph.maxX = 0 → 0 < (W.read v).Graph.greatestY →
        ∀ y ∈ ys, y ≤ (W.read v).Graph.greatestY → -2 ^ 63 ≤ y * (W.read v).viewSize.2 →
          ∃ q, goDiv (goMul y (W.read v).viewSize.2) (W.read v).Graph.greatestY = .ok q ∧
            q ≤ (W.read v).viewSize.2 ∧
            scaleY (W.read v).Graph (W.read v).viewSize.2 y = .ok q)) ∧
    (∀ (i : Nat) (x : Int) (W1 : World) (v1 : Var), W.vars[i]? = some v →
      W.step (.addNextValue i x) = .ok W1 → W1.vars[i]? = some v1 →
      ∃ ys1 : List Int, (W1.read v1).Graph.yValues = ys1.map some ∧
        ∀ y ∈ ys1, y ≤ (W1.read v1).Graph.greatestY) := by
  have hW := reachable_wellFormed W hr
  obtain ⟨_, _, _, hg, _⟩ := hW.2 v hv
  obtain ⟨ys, hys, hlen⟩ := read_ints W hW v
  refine ⟨hg, ⟨ys, hys, ?_, ?_⟩, ?_⟩
  · intro hc y hy
    obtain ⟨_, ⟨zs, hzs, hle⟩, _⟩ := chain_wellFormed _ hc
    have hzy : zs = ys :=
      List.map_injective_iff.mpr (Option.some_injective Int) (hzs.symm.trans hys)
    subst hzy
    exact hle y hy
  · intro hmax hpos y _ hle hlow
    obtain ⟨q, hq, hqh⟩ := scaled_le_height y (W.read v).Graph.greatestY
      (W.read v).viewSize.2 hle hpos (viewSize_height_nonneg _) hlow
    refine ⟨q, hq, hqh, ?_⟩
    unfold scaleY
    rw [if_neg (by simp [hmax]), if_pos (by omega), hq]
    simp only
    rw [if_neg (by omega)]
  · intro i x W1 v1 hi hs hv1
    cases ys with
    | nil =>
      have hnil : (W.read v).Graph.yValues = [] := by simpa using hys
      have herr : (W.read v).AddNextValue x = .error .nilDeref := by
        unfold Model.AddNextValue
        rw [hnil]
        rfl
      simp only [World.step, hi, herr] at hs
      exact absurd hs (by simp)
    | cons y ys =>
      have hadd := AddNextValue_ints _ y ys x hys
      obtain ⟨W2, v2, hs2, hv2, hread⟩ := step_addNextValue_read W hW i x v hi _ _ hadd
      rw [hs] at hs2
      have hWW : W1 = W2 := Except.ok.inj hs2
      subst hWW
      rw [hv1] at hv2
      have hvv : v1 = v2 := Option.some.inj hv2
      subst hvv
      rw [hread]
      exact ⟨ys ++ [x], rfl, fun z hz => maxFrom_upper _ 0 z hz⟩

theorem run_two_samples_state :
    ∃ W v, World.run [.new 0, .setSize 0 4 6, .addNextValue 1 40, .addNextValue 1 80]
        World.empty = .ok W ∧ W.vars[1]? = some v ∧
      (W.read v).Graph.maxX = 0 ∧ (W.read v).Graph.greatestY = 80 ∧
      (W.read v).viewSize.2 = 4 ∧
      (W.read v).Graph.yValues = [some 40, some 80] := ⟨_, _, rfl, rfl, rfl, rfl, rfl, rfl⟩

/-- Witness for C19: the ring 40, 80 at height 4, after `New`, `SetSize(4, 6)`
and the inserts 40 and 80 on the resized model; `greatestY` is 80 and the sample
40 gets `40 * 4 / 80 = 2` rows. -/
theorem reachable_values_below_greatestY_witness :
    ∃ W v, World.run [.new 0, .setSize 0 4 6, .addNextValue 1 40, .addNextValue 1 80]
        World.empty = .ok W ∧ W.vars[1]? = some v ∧
      (W.read v).Graph.maxX = 0 ∧ (W.read v).Graph.greatestY = 80 ∧
      (W.read v).viewSize.2 = 4 ∧
      (W.read v).Graph.yValues = [some 40, some 80] ∧
      ∃ q, goDiv (goMul 40 (W.read v).viewSize.2) (W.read v).Graph.greatestY = .ok q ∧
        q ≤ (W.read v).viewSize.2 := by
  obtain ⟨W, v, hrun, hv, hmx, hgy, hvs, hring⟩ := run_two_samples_state
  obtain ⟨_, ⟨ys, h1, _, h3⟩, _⟩ :=
    reachable_values_below_greatestY W v ⟨_, hrun⟩ (List.getElem?_mem hv)
  have hy : ys = [40, 80] := by
    have h : ys.map some = List.map some [40, 80] := by rw [← h1, hring]; rfl
    exact List.map_injective_iff.mpr (Option.some_injective Int) h
  subst hy
  obtain ⟨q, hq1, hq2, _⟩ := h3 hmx (by rw [hgy]; decide) 40 (by simp)
    (by rw [hgy]; decide) (by rw [hvs]; decide)
  exact ⟨W, v, hrun, hv, hmx, hgy, hvs, hring, q, hq1, hq2⟩

end Graph
